import Mathlib

/-!
Verification of the `url-state` value codec and query-builder pipeline.

The development shallowly embeds `src/serializer.ts` (the `serializeUrl` /
`deserializeUrl` codec with its caches) and `src/query-builder.ts` (the
`QueryBuilder` class), together with the `shouldRemoveParam` / `updateUrl`
pair of the `useUrlState` hook quoted in the repository README.

JavaScript runtime values reachable by the codec are modelled by `JsValue`;
JavaScript objects are modelled as ordered association lists with
JS-object assignment semantics (`objSet`: update in place, append if new).
The external collaborators (the `seroval` structural codec and the
JS `Number`/`String`/URI built-ins) are not part of the repository source;
they are modelled from the spec's words, as documented on each definition.
-/

namespace UrlState

/-- The universe of JavaScript values handled by the codec: primitives
(string, number, boolean, null), the `undefined` sentinel, arrays, plain
objects (ordered key/value lists) and dates (epoch milliseconds). -/
inductive JsValue where
  | str (s : String)
  | num (n : Int)
  | bool (b : Bool)
  | null
  | undef
  | arr (items : List JsValue)
  | obj (fields : List (String × JsValue))
  | date (ms : Int)

mutual

/-- Decidable equality on `JsValue` (written by hand: the nested inductive
has no derived instance). -/
def decEqVal : (a b : JsValue) → Decidable (a = b)
  | .str a, .str b =>
    match decEq a b with
    | .isTrue h => .isTrue (by rw [h])
    | .isFalse h => .isFalse (by intro e; cases e; exact h rfl)
  | .num a, .num b =>
    match decEq a b with
    | .isTrue h => .isTrue (by rw [h])
    | .isFalse h => .isFalse (by intro e; cases e; exact h rfl)
  | .bool a, .bool b =>
    match decEq a b with
    | .isTrue h => .isTrue (by rw [h])
    | .isFalse h => .isFalse (by intro e; cases e; exact h rfl)
  | .null, .null => .isTrue rfl
  | .undef, .undef => .isTrue rfl
  | .date a, .date b =>
    match decEq a b with
    | .isTrue h => .isTrue (by rw [h])
    | .isFalse h => .isFalse (by intro e; cases e; exact h rfl)
  | .arr a, .arr b =>
    match decEqItems a b with
    | .isTrue h => .isTrue (by rw [h])
    | .isFalse h => .isFalse (by intro e; cases e; exact h rfl)
  | .obj a, .obj b =>
    match decEqFields a b with
    | .isTrue h => .isTrue (by rw [h])
    | .isFalse h => .isFalse (by intro e; cases e; exact h rfl)
  | .str _, .num _ => .isFalse (fun h => JsValue.noConfusion h)
  | .str _, .bool _ => .isFalse (fun h => JsValue.noConfusion h)
  | .str _, .null => .isFalse (fun h => JsValue.noConfusion h)
  | .str _, .undef => .isFalse (fun h => JsValue.noConfusion h)
  | .str _, .arr _ => .isFalse (fun h => JsValue.noConfusion h)
  | .str _, .obj _ => .isFalse (fun h => JsValue.noConfusion h)
  | .str _, .date _ => .isFalse (fun h => JsValue.noConfusion h)
  | .num _, .str _ => .isFalse (fun h => JsValue.noConfusion h)
  | .num _, .bool _ => .isFalse (fun h => JsValue.noConfusion h)
  | .num _, .null => .isFalse (fun h => JsValue.noConfusion h)
  | .num _, .undef => .isFalse (fun h => JsValue.noConfusion h)
  | .num _, .arr _ => .isFalse (fun h => JsValue.noConfusion h)
  | .num _, .obj _ => .isFalse (fun h => JsValue.noConfusion h)
  | .num _, .date _ => .isFalse (fun h => JsValue.noConfusion h)
  | .bool _, .str _ => .isFalse (fun h => JsValue.noConfusion h)
  | .bool _, .num _ => .isFalse (fun h => JsValue.noConfusion h)
  | .bool _, .null => .isFalse (fun h => JsValue.noConfusion h)
  | .bool _, .undef => .isFalse (fun h => JsValue.noConfusion h)
  | .bool _, .arr _ => .isFalse (fun h => JsValue.noConfusion h)
  | .bool _, .obj _ => .isFalse (fun h => JsValue.noConfusion h)
  | .bool _, .date _ => .isFalse (fun h => JsValue.noConfusion h)
  | .null, .str _ => .isFalse (fun h => JsValue.noConfusion h)
  | .null, .num _ => .isFalse (fun h => JsValue.noConfusion h)
  | .null, .bool _ => .isFalse (fun h => JsValue.noConfusion h)
  | .null, .undef => .isFalse (fun h => JsValue.noConfusion h)
  | .null, .arr _ => .isFalse (fun h => JsValue.noConfusion h)
  | .null, .obj _ => .isFalse (fun h => JsValue.noConfusion h)
  | .null, .date _ => .isFalse (fun h => JsValue.noConfusion h)
  | .undef, .str _ => .isFalse (fun h => JsValue.noConfusion h)
  | .undef, .num _ => .isFalse (fun h => JsValue.noConfusion h)
  | .undef, .bool _ => .isFalse (fun h => JsValue.noConfusion h)
  | .undef, .null => .isFalse (fun h => JsValue.noConfusion h)
  | .undef, .arr _ => .isFalse (fun h => JsValue.noConfusion h)
  | .undef, .obj _ => .isFalse (fun h => JsValue.noConfusion h)
  | .undef, .date _ => .isFalse (fun h => JsValue.noConfusion h)
  | .arr _, .str _ => .isFalse (fun h => JsValue.noConfusion h)
  | .arr _, .num _ => .isFalse (fun h => JsValue.noConfusion h)
  | .arr _, .bool _ => .isFalse (fun h => JsValue.noConfusion h)
  | .arr _, .null => .isFalse (fun h => JsValue.noConfusion h)
  | .arr _, .undef => .isFalse (fun h => JsValue.noConfusion h)
  | .arr _, .obj _ => .isFalse (fun h => JsValue.noConfusion h)
  | .arr _, .date _ => .isFalse (fun h => JsValue.noConfusion h)
  | .obj _, .str _ => .isFalse (fun h => JsValue.noConfusion h)
  | .obj _, .num _ => .isFalse (fun h => JsValue.noConfusion h)
  | .obj _, .bool _ => .isFalse (fun h => JsValue.noConfusion h)
  | .obj _, .null => .isFalse (fun h => JsValue.noConfusion h)
  | .obj _, .undef => .isFalse (fun h => JsValue.noConfusion h)
  | .obj _, .arr _ => .isFalse (fun h => JsValue.noConfusion h)
  | .obj _, .date _ => .isFalse (fun h => JsValue.noConfusion h)
  | .date _, .str _ => .isFalse (fun h => JsValue.noConfusion h)
  | .date _, .num _ => .isFalse (fun h => JsValue.noConfusion h)
  | .date _, .bool _ => .isFalse (fun h => JsValue.noConfusion h)
  | .date _, .null => .isFalse (fun h => JsValue.noConfusion h)
  | .date _, .undef => .isFalse (fun h => JsValue.noConfusion h)
  | .date _, .arr _ => .isFalse (fun h => JsValue.noConfusion h)
  | .date _, .obj _ => .isFalse (fun h => JsValue.noConfusion h)

/-- Decidable equality on lists of `JsValue`. -/
def decEqItems : (a b : List JsValue) → Decidable (a = b)
  | [], [] => .isTrue rfl
  | [], _ :: _ => .isFalse (fun h => List.noConfusion h)
  | _ :: _, [] => .isFalse (fun h => List.noConfusion h)
  | a :: as, b :: bs =>
    match decEqVal a b with
    | .isFalse h => .isFalse (by intro e; cases e; exact h rfl)
    | .isTrue h1 =>
      match decEqItems as bs with
      | .isTrue h2 => .isTrue (by rw [h1, h2])
      | .isFalse h => .isFalse (by intro e; cases e; exact h rfl)

/-- Decidable equality on `JsValue` object field lists. -/
def decEqFields : (a b : List (String × JsValue)) → Decidable (a = b)
  | [], [] => .isTrue rfl
  | [], _ :: _ => .isFalse (fun h => List.noConfusion h)
  | _ :: _, [] => .isFalse (fun h => List.noConfusion h)
  | (k1, v1) :: as, (k2, v2) :: bs =>
    match decEq k1 k2 with
    | .isFalse h => .isFalse (by intro e; cases e; exact h rfl)
    | .isTrue hk =>
      match decEqVal v1 v2 with
      | .isFalse h => .isFalse (by intro e; cases e; exact h rfl)
      | .isTrue hv =>
        match decEqFields as bs with
        | .isTrue ht => .isTrue (by rw [hk, hv, ht])
        | .isFalse h => .isFalse (by intro e; cases e; exact h rfl)

end

instance : DecidableEq JsValue := decEqVal

/-- Decidable equality for codec results (`.ok v` / a thrown exception). -/
def decEqExceptJs : (a b : Except Unit JsValue) → Decidable (a = b)
  | .ok a, .ok b =>
    match decEqVal a b with
    | .isTrue h => .isTrue (by rw [h])
    | .isFalse h => .isFalse (by intro e; cases e; exact h rfl)
  | .error _, .error _ => .isTrue rfl
  | .ok _, .error _ => .isFalse (fun h => Except.noConfusion h)
  | .error _, .ok _ => .isFalse (fun h => Except.noConfusion h)

instance : DecidableEq (Except Unit JsValue) := decEqExceptJs

/-- Decidable equality for results carrying any decidable payload (used to
evaluate extractor runs on concrete inputs). -/
def decEqExceptGen {β : Type} [DecidableEq β] : (a b : Except Unit β) → Decidable (a = b)
  | .ok a, .ok b =>
    match decEq a b with
    | .isTrue h => .isTrue (by rw [h])
    | .isFalse h => .isFalse (by intro e; cases e; exact h rfl)
  | .error _, .error _ => .isTrue rfl
  | .ok _, .error _ => .isFalse (fun h => Except.noConfusion h)
  | .error _, .ok _ => .isFalse (fun h => Except.noConfusion h)

instance {β : Type} [DecidableEq β] : DecidableEq (Except Unit β) := decEqExceptGen

/-- The double-quote character (written by code point to keep string
literals free of quoting subtleties). -/
def dqChar : Char := Char.ofNat 34

/-- The backslash character. -/
def bslashChar : Char := Char.ofNat 92

/-- The percent character. -/
def pctChar : Char := Char.ofNat 37

/-! ### Decimal integers: the JS `Number` ↔ `String` pair, restricted

`deserializeUrlValue` decides numerichood with
`!isNaN(n) && isFinite(n) && decoded === String(n)` for `n = Number(decoded)`:
the text counts as a number exactly when it is the canonical string of a
finite JS number.  The JS built-ins are not part of this repository, so they
are modelled from the spec: "value is treated as numeric only if the whole
unescaped text round-trips losslessly through number→string, rejecting
leading/trailing garbage and non-canonical forms like `007` ≠ `7`".
The model restricts JS numbers to integers of magnitude at most 2^53
(the range where a JS double is exact and `String` prints plain decimal
digits); decimal fractions and exponent forms are outside the model. -/

/-- Fuelled worker for `natToDigits` (fuel keeps the recursion structural,
so that the definition computes by kernel reduction). -/
def natToDigitsAux : Nat → Nat → List Char
  | 0, _ => []
  | f + 1, n =>
    if n < 10 then [Char.ofNat (48 + n)]
    else natToDigitsAux f (n / 10) ++ [Char.ofNat (48 + n % 10)]

/-- Decimal digits of `n`, most significant first (`0` prints as `"0"`). -/
def natToDigits (n : Nat) : List Char := natToDigitsAux (n + 1) n

/-- Value of a list of decimal digit characters. -/
def digitsVal (cs : List Char) : Nat :=
  cs.foldl (fun a c => a * 10 + (c.toNat - 48)) 0

/-- Canonical decimal character form of an integer (as JS `String(n)`
prints an exact integer: a minus sign for negatives, no leading zeros). -/
def intChars (m : Int) : List Char :=
  if m < 0 then '-' :: natToDigits m.natAbs else natToDigits m.natAbs

/-- Modelled from the spec: JS `String(n)` for an exact integer `n`. -/
def jsNumToString (m : Int) : String := ⟨intChars m⟩

/-- Decimal digit test (code points 48–57). -/
def isDigitC (c : Char) : Bool := 48 ≤ c.toNat && c.toNat ≤ 57

/-- Parse an optionally-signed run of decimal digits from the front of a
character list (maximal munch), returning the value and the rest. -/
def parseInt (cs : List Char) : Option (Int × List Char) :=
  match cs with
  | [] => none
  | c :: rest =>
    if c = '-' then
      let ds := rest.takeWhile isDigitC
      if ds.isEmpty then none
      else some (-(digitsVal ds : Int), rest.dropWhile isDigitC)
    else
      let ds := cs.takeWhile isDigitC
      if ds.isEmpty then none
      else some ((digitsVal ds : Int), cs.dropWhile isDigitC)

/-- Modelled from the spec: the numeric-recognition test
`!isNaN(n) && isFinite(n) && decoded === String(Number(decoded))` of
`deserializeUrlValue`, restricted to exact integers (|n| ≤ 2^53): `some n`
exactly when the whole text is the canonical decimal form of `n`
(so `"7"` ↦ `some 7` while `"007"`, `"-0"`, `" 7"`, `"7x"` ↦ `none`). -/
def jsCanonicalNumber? (s : String) : Option Int :=
  match parseInt s.data with
  | some (m, []) =>
    if intChars m = s.data ∧ m.natAbs ≤ 2 ^ 53 then some m else none
  | _ => none

/-! ### The structural codec (`seroval`), modelled from the spec

The composite-value path of the codec delegates to the external `seroval`
library ("a general value→text codec capable of round-tripping nested
objects, arrays, dates"); its source is not part of this repository.  It is
modelled from the spec as a structural printer/parser pair whose output
starts with `[` for arrays, `{` for objects, and carries the
`seroval:` composite-value sentinel marker for dates — the three shapes the
fast path of `deserializeUrlValue` recognizes as composite. -/

/-- Escape double quotes and backslashes inside a serialized string. -/
def escapeChars : List Char → List Char
  | [] => []
  | c :: rest =>
    if c = dqChar ∨ c = bslashChar then bslashChar :: c :: escapeChars rest
    else c :: escapeChars rest

/-- Characters of the date form's prefix, `seroval:Date(`. -/
def datePreChars : List Char := "seroval:Date(".data

mutual

/-- Modelled from the spec: the structural serializer (`seroval.serialize`)
on the codec's value universe. -/
def printVal : JsValue → List Char
  | .str s => dqChar :: (escapeChars s.data ++ [dqChar])
  | .num m => intChars m
  | .bool true => ['t', 'r', 'u', 'e']
  | .bool false => ['f', 'a', 'l', 's', 'e']
  | .null => ['n', 'u', 'l', 'l']
  | .undef => ['u', 'n', 'd', 'e', 'f', 'i', 'n', 'e', 'd']
  | .date m => datePreChars ++ intChars m ++ [')']
  | .arr l => '[' :: (printItemsC l ++ [']'])
  | .obj fs => '{' :: (printFieldsC fs ++ ['}'])

/-- Serialized array items, each one followed by `;`. -/
def printItemsC : List JsValue → List Char
  | [] => []
  | v :: t => printVal v ++ ';' :: printItemsC t

/-- Serialized object fields, `"key":value;` each. -/
def printFieldsC : List (String × JsValue) → List Char
  | [] => []
  | (k, v) :: t =>
    dqChar :: (escapeChars k.data ++ [dqChar, ':']) ++ printVal v ++ ';' :: printFieldsC t

end

/-- Parse the body of a serialized string up to its closing quote. -/
def parseStrChars : List Char → Option (List Char × List Char)
  | [] => none
  | c :: rest =>
    if c = dqChar then some ([], rest)
    else if c = bslashChar then
      match rest with
      | [] => none
      | c2 :: r2 => (parseStrChars r2).map (fun p => (c2 :: p.1, p.2))
    else (parseStrChars rest).map (fun p => (c :: p.1, p.2))

/-- Boolean prefix test on character lists. -/
def hasPre (p cs : List Char) : Bool := p.isPrefixOf cs

mutual

/-- Modelled from the spec: the structural parser (`seroval.deserialize`),
fuelled for termination; inverse of `printVal` on its image. -/
def parseValue : Nat → List Char → Option (JsValue × List Char)
  | 0, _ => none
  | _ + 1, [] => none
  | n + 1, c :: rest =>
    if c = dqChar then (parseStrChars rest).map (fun p => (.str ⟨p.1⟩, p.2))
    else if c = '[' then
      match parseItemsL n rest with
      | some (l, r) => some (.arr l, r)
      | none => none
    else if c = '{' then
      match parseFieldsL n rest with
      | some (fs, r) => some (.obj fs, r)
      | none => none
    else if hasPre ['t', 'r', 'u', 'e'] (c :: rest) then some (.bool true, (c :: rest).drop 4)
    else if hasPre ['f', 'a', 'l', 's', 'e'] (c :: rest) then some (.bool false, (c :: rest).drop 5)
    else if hasPre ['n', 'u', 'l', 'l'] (c :: rest) then some (.null, (c :: rest).drop 4)
    else if hasPre ['u', 'n', 'd', 'e', 'f', 'i', 'n', 'e', 'd'] (c :: rest) then
      some (.undef, (c :: rest).drop 9)
    else if hasPre datePreChars (c :: rest) then
      match parseInt ((c :: rest).drop 13) with
      | some (m, rp :: r3) => if rp = ')' then some (.date m, r3) else none
      | _ => none
    else
      match parseInt (c :: rest) with
      | some (m, r) => some (.num m, r)
      | none => none

/-- Parse serialized array items up to the closing `]`. -/
def parseItemsL : Nat → List Char → Option (List JsValue × List Char)
  | 0, _ => none
  | _ + 1, [] => none
  | n + 1, c :: rest =>
    if c = ']' then some ([], rest)
    else
      match parseValue n (c :: rest) with
      | some (v, c2 :: r2) =>
        if c2 = ';' then
          match parseItemsL n r2 with
          | some (l, r) => some (v :: l, r)
          | none => none
        else none
      | _ => none

/-- Parse serialized object fields up to the closing `}`. -/
def parseFieldsL : Nat → List Char → Option (List (String × JsValue) × List Char)
  | 0, _ => none
  | _ + 1, [] => none
  | n + 1, c :: rest =>
    if c = '}' then some ([], rest)
    else if c = dqChar then
      match parseStrChars rest with
      | some (k, c2 :: r2) =>
        if c2 = ':' then
          match parseValue n r2 with
          | some (v, c3 :: r3) =>
            if c3 = ';' then
              match parseFieldsL n r3 with
              | some (fs, r) => some ((⟨k⟩, v) :: fs, r)
              | none => none
            else none
          | _ => none
        else none
      | _ => none
    else none

end

mutual

/-- Fuel needed by `parseValue` to consume a printed value. -/
def wVal : JsValue → Nat
  | .str _ => 1
  | .num _ => 1
  | .bool _ => 1
  | .null => 1
  | .undef => 1
  | .date _ => 1
  | .arr l => 1 + wItems l
  | .obj fs => 1 + wFields fs

/-- Fuel needed by `parseItemsL` to consume printed items. -/
def wItems : List JsValue → Nat
  | [] => 1
  | v :: t => 1 + wVal v + wItems t

/-- Fuel needed by `parseFieldsL` to consume printed fields. -/
def wFields : List (String × JsValue) → Nat
  | [] => 1
  | (_, v) :: t => 1 + wVal v + wFields t

end

/-- Modelled from the spec: `seroval.serialize` as a string function. -/
def serovalSerialize (v : JsValue) : String := ⟨printVal v⟩

/-- Modelled from the spec: `seroval.deserialize`; `.error ()` models a
thrown exception (a string that is not a full serialized value). -/
def serovalDeserialize (s : String) : Except Unit JsValue :=
  match parseValue (2 * s.data.length + 2) s.data with
  | some (v, []) => .ok v
  | _ => .error ()

/-! ### The URI component codec

`encodeURIComponent` / `decodeURIComponent` are JS built-ins (not part of
this repository); they are modelled byte-accurately: unreserved characters
pass through, every other character percent-encodes its UTF-8 bytes, and
decoding follows the ECMAScript `Decode` algorithm, failing (`none`, a
thrown `URIError`) on malformed percent escapes or invalid UTF-8. -/

/-- The characters `encodeURIComponent` leaves unescaped
(alphanumerics and `- _ . ! ~ * ' ( )`). -/
def isUriUnreserved (c : Char) : Bool :=
  c.isAlphanum || c = '-' || c = '_' || c = '.' || c = '!' || c = '~' ||
    c = '*' || c = Char.ofNat 39 || c = '(' || c = ')'

/-- UTF-8 bytes of a character (1–4 bytes). -/
def utf8Bytes (c : Char) : List Nat :=
  let n := c.toNat
  if n < 128 then [n]
  else if n < 2048 then [192 + n / 64, 128 + n % 64]
  else if n < 65536 then [224 + n / 4096, 128 + (n / 64) % 64, 128 + n % 64]
  else [240 + n / 262144, 128 + (n / 4096) % 64, 128 + (n / 64) % 64, 128 + n % 64]

/-- Uppercase hex digit for a value below 16. -/
def hexDigitChar (n : Nat) : Char :=
  if n < 10 then Char.ofNat (48 + n) else Char.ofNat (55 + n)

/-- `%XY` percent-escape of one byte. -/
def pctEncodeByte (b : Nat) : List Char :=
  [pctChar, hexDigitChar (b / 16), hexDigitChar (b % 16)]

/-- `encodeURIComponent` on one character. -/
def encodeCharURI (c : Char) : List Char :=
  if isUriUnreserved c then [c] else ((utf8Bytes c).map pctEncodeByte).flatten

/-- Modelled from the spec: the JS `encodeURIComponent` built-in. -/
def encodeURIComponent (s : String) : String :=
  ⟨(s.data.map encodeCharURI).flatten⟩

/-- Hex digit value of a character (upper or lower case), if any. -/
def hexVal? (c : Char) : Option Nat :=
  if 48 ≤ c.toNat ∧ c.toNat ≤ 57 then some (c.toNat - 48)
  else if 65 ≤ c.toNat ∧ c.toNat ≤ 70 then some (c.toNat - 55)
  else if 97 ≤ c.toNat ∧ c.toNat ≤ 102 then some (c.toNat - 87)
  else none

/-- Read one `%XY` escape from the front of the list, as a byte. -/
def readPctByte : List Char → Option (Nat × List Char)
  | p :: h1 :: h2 :: r =>
    if p = pctChar then
      match hexVal? h1, hexVal? h2 with
      | some a, some b => some (16 * a + b, r)
      | _, _ => none
    else none
  | _ => none

/-- Decode one percent-escaped UTF-8 character cluster (the escape at the
front of the list together with its percent-escaped continuation bytes),
per the ECMAScript `Decode` algorithm: the byte ranges of a strictly
valid UTF-8 sequence, rejecting overlong forms and encoded surrogates. -/
def decodePctChar (cs : List Char) : Option (Char × List Char) :=
  match readPctByte cs with
  | none => none
  | some (b1, r1) =>
    if b1 < 128 then some (Char.ofNat b1, r1)
    else if 194 ≤ b1 ∧ b1 ≤ 223 then
      match readPctByte r1 with
      | some (b2, r2) =>
        if 128 ≤ b2 ∧ b2 ≤ 191 then
          some (Char.ofNat ((b1 - 192) * 64 + (b2 - 128)), r2)
        else none
      | none => none
    else if 224 ≤ b1 ∧ b1 ≤ 239 then
      match readPctByte r1 with
      | some (b2, r2) =>
        if 128 ≤ b2 ∧ b2 ≤ 191 ∧ ¬(b1 = 224 ∧ b2 < 160) ∧ ¬(b1 = 237 ∧ 159 < b2) then
          match readPctByte r2 with
          | some (b3, r3) =>
            if 128 ≤ b3 ∧ b3 ≤ 191 then
              some (Char.ofNat ((b1 - 224) * 4096 + (b2 - 128) * 64 + (b3 - 128)), r3)
            else none
          | none => none
        else none
      | none => none
    else if 240 ≤ b1 ∧ b1 ≤ 244 then
      match readPctByte r1 with
      | some (b2, r2) =>
        if 128 ≤ b2 ∧ b2 ≤ 191 ∧ ¬(b1 = 240 ∧ b2 < 144) ∧ ¬(b1 = 244 ∧ 143 < b2) then
          match readPctByte r2 with
          | some (b3, r3) =>
            if 128 ≤ b3 ∧ b3 ≤ 191 then
              match readPctByte r3 with
              | some (b4, r4) =>
                if 128 ≤ b4 ∧ b4 ≤ 191 then
                  some (Char.ofNat ((b1 - 240) * 262144 + (b2 - 128) * 4096 +
                    (b3 - 128) * 64 + (b4 - 128)), r4)
                else none
              | none => none
            else none
          | none => none
        else none
      | none => none
    else none

/-- The ECMAScript `Decode` loop on character lists: literal characters
pass through, a percent sign starts an escape cluster, anything malformed
fails.  The fuel (one unit per decoded character) keeps the recursion
structural; callers pass `length + 1`, which cannot run out because every
step consumes at least one input character. -/
def decodeURIGo : Nat → List Char → Option (List Char)
  | 0, _ => none
  | _ + 1, [] => some []
  | f + 1, c :: rest =>
    if c = pctChar then
      match decodePctChar (c :: rest) with
      | some p => (decodeURIGo f p.2).map (fun l => p.1 :: l)
      | none => none
    else (decodeURIGo f rest).map (fun l => c :: l)

/-- Modelled from the spec: the JS `decodeURIComponent` built-in; `none`
models a thrown `URIError`. -/
def decodeURIComponent (s : String) : Option String :=
  (decodeURIGo (s.data.length + 1) s.data).map (fun l => ⟨l⟩)

/-! ### The value codec (`serializeUrl` / `deserializeUrlValue`)

Embedded from `src/serializer.ts`.  Exceptions are modelled by
`Except Unit`: `.error ()` is an exception escaping to the caller.  The
"pure" versions below run with no cache (every lookup misses); the cached
versions thread the module-level cache maps explicitly. -/

/-- The substring test `decoded.includes(p)` on character lists. -/
def listContains (l p : List Char) : Bool :=
  l.tails.any (fun t => p.isPrefixOf t)

/-- Characters of the `seroval:` composite-value sentinel marker. -/
def serovalMark : List Char := "seroval:".data

/-- The composite shape test of `deserializeUrlValue`:
`decoded.startsWith('[') || decoded.startsWith('{') ||
decoded.includes('seroval:')` (the fast path returns the text as a plain
string exactly when this is false). -/
def compositeLooking (s : String) : Bool :=
  ['['].isPrefixOf s.data || ['{'].isPrefixOf s.data || listContains s.data serovalMark

/-- `serializeUrl` (src/serializer.ts, lines 175–201) with no cache: fast
paths for the primitives, the empty string for `null`/`undefined`, and the
percent-encoded structural serialization for composites.  (The structural
serializer of the model is total, so the `catch` fallback
`encodeURIComponent(String(value))` is unreachable.) -/
def serializeUrlPure : JsValue → String
  | .str s => encodeURIComponent s
  | .num n => encodeURIComponent (jsNumToString n)
  | .bool true => encodeURIComponent "true"
  | .bool false => encodeURIComponent "false"
  | .null => ""
  | .undef => ""
  | .arr l => encodeURIComponent (serovalSerialize (.arr l))
  | .obj fs => encodeURIComponent (serovalSerialize (.obj fs))
  | .date m => encodeURIComponent (serovalSerialize (.date m))

/-- The `try` block of `deserializeUrlValue` (src/serializer.ts, lines
214–242): URL-unescape, literal fast paths in order (`true`, `false`,
`null`, `undefined`), the lossless-number test, the plain-string fast path,
then the structural deserializer.  `.error ()` is a thrown exception
(from `decodeURIComponent` or from `deserialize`). -/
def deserializeTryPure (value : String) : Except Unit JsValue :=
  match decodeURIComponent value with
  | none => .error ()
  | some decoded =>
    if decoded = "true" then .ok (.bool true)
    else if decoded = "false" then .ok (.bool false)
    else if decoded = "null" then .ok .null
    else if decoded = "undefined" then .ok .undef
    else
      match jsCanonicalNumber? decoded with
      | some n => .ok (.num n)
      | none =>
        if compositeLooking decoded = false then .ok (.str decoded)
        else serovalDeserialize decoded

/-- `deserializeUrlValue` (src/serializer.ts, lines 206–247) with no cache:
empty input returns itself; otherwise run the `try` block; on a thrown
exception the `catch` returns `decodeURIComponent(value)` — which itself
throws again (escaping the function) when the failure was a malformed
percent escape. -/
def deserializeUrlValuePure (value : String) : Except Unit JsValue :=
  if value = "" then .ok (.str value)
  else
    match deserializeTryPure value with
    | .ok v => .ok v
    | .error _ =>
      match decodeURIComponent value with
      | some t => .ok (.str t)
      | none => .error ()

/-- `MAX_CACHE_SIZE` (src/serializer.ts, line 170). -/
def MAX_CACHE_SIZE : Nat := 1000

/-- The serialization cache, `Map<StateValue, string>` in insertion order.
(The JS map keys composite values by identity; the model keys them by
structural equality, which a deterministic serializer cannot distinguish.) -/
abbrev SerCache := List (JsValue × String)

/-- The deserialization cache, `Map<string, StateValue>`. -/
abbrev DeserCache := List (String × JsValue)

/-- The composite branch of `serializeUrl` (src/serializer.ts, lines
182–196): cache lookup, structural serialization, percent-encoding, and
bounded cache insertion. -/
def serializeCompositeC (cache : SerCache) (v : JsValue) : String × SerCache :=
  match cache.find? (fun e => e.1 == v) with
  | some e => (e.2, cache)
  | none =>
    let encoded := encodeURIComponent (serovalSerialize v)
    if cache.length < MAX_CACHE_SIZE then (encoded, cache ++ [(v, encoded)])
    else (encoded, cache)

/-- `serializeUrl` with its cache threaded explicitly: primitives bypass
the cache, composites look it up, and a computed encoding is inserted
only while the cache holds fewer than `MAX_CACHE_SIZE` entries. -/
def serializeUrlC (cache : SerCache) : JsValue → String × SerCache
  | .str s => (encodeURIComponent s, cache)
  | .num n => (encodeURIComponent (jsNumToString n), cache)
  | .bool true => (encodeURIComponent "true", cache)
  | .bool false => (encodeURIComponent "false", cache)
  | .null => ("", cache)
  | .undef => ("", cache)
  | .arr l => serializeCompositeC cache (.arr l)
  | .obj fs => serializeCompositeC cache (.obj fs)
  | .date m => serializeCompositeC cache (.date m)

/-- `deserializeUrlValue` with its cache threaded explicitly.  Only the
structural-deserialization path inserts into the cache (the fast paths
return before the insertion point, mirroring the source). -/
def deserializeUrlValueC (cache : DeserCache) (value : String) :
    Except Unit JsValue × DeserCache :=
  if value = "" then (.ok (.str value), cache)
  else
    match cache.find? (fun e => e.1 == value) with
    | some e => (.ok e.2, cache)
    | none =>
      match decodeURIComponent value with
      | none => (.error (), cache)
      | some decoded =>
        if decoded = "true" then (.ok (.bool true), cache)
        else if decoded = "false" then (.ok (.bool false), cache)
        else if decoded = "null" then (.ok .null, cache)
        else if decoded = "undefined" then (.ok .undef, cache)
        else
          match jsCanonicalNumber? decoded with
          | some n => (.ok (.num n), cache)
          | none =>
            if compositeLooking decoded = false then (.ok (.str decoded), cache)
            else
              match serovalDeserialize decoded with
              | .ok result =>
                if cache.length < MAX_CACHE_SIZE then
                  (.ok result, cache ++ [(value, result)])
                else (.ok result, cache)
              | .error _ => (.ok (.str decoded), cache)

/-- Both codec caches, as cleared and inspected by
`clearUrlStateCaches` / `getCacheStats`. -/
structure UrlCaches where
  ser : SerCache
  deser : DeserCache

/-- `clearUrlStateCaches` (src/serializer.ts, lines 318–321). -/
def clearUrlStateCaches (_caches : UrlCaches) : UrlCaches :=
  { ser := [], deser := [] }

/-! ### The parameter extractor (`deserializeUrl` on a parameter source) -/

/-- A parameter-source entry value: a single string, an array of strings,
or `undefined`. -/
inductive SPV where
  | one (s : String)
  | many (l : List String)
  | missing

/-- A plain `SearchParams` source: an ordered key/value mapping. -/
abbrev SearchParams := List (String × SPV)

/-- The entry list `deserializeUrl` builds from a plain object source:
skip `undefined` values, take an array's first element (which is again
`undefined` for an empty array). -/
def spEntries : SearchParams → List (String × Option String)
  | [] => []
  | (k, .one s) :: t => (k, some s) :: spEntries t
  | (k, .many l) :: t => (k, l.head?) :: spEntries t
  | (_, .missing) :: t => spEntries t

/-- A JS object under construction: an ordered association list. -/
abbrev Obj := List (String × JsValue)

/-- JS object assignment `o[k] = v`: update the first entry with key `k`
in place, or append a new entry. -/
def objSet : Obj → String → JsValue → Obj
  | [], k, v => [(k, v)]
  | (k1, v1) :: rest, k, v =>
    if k1 = k then (k, v) :: rest else (k1, v1) :: objSet rest k v

/-- JS object read `o[k]` (the value of the first — hence unique — entry
with key `k`). -/
def objLookup (k : String) : Obj → Option JsValue
  | [] => none
  | (k1, v) :: t => if k1 = k then some v else objLookup k t

/-- The value the LAST entry with key `k` carries, if any (used to state
per-key last-write-wins laws). -/
def objLookupLast (k : String) : Obj → Option JsValue
  | [] => none
  | (k1, v) :: t =>
    match objLookupLast k t with
    | some w => some w
    | none => if k1 = k then some v else none

/-- The last source entry with a given key, if any (used to state the
last-write-wins law of prefix extraction). -/
def lastEntry (key : String) : List (String × Option String) → Option (String × Option String)
  | [] => none
  | (k, v) :: t =>
    match lastEntry key t with
    | some e => some e
    | none => if k = key then some (k, v) else none

/-- `deserializeUrlValue` applied to a source entry value, which is
`undefined` (returned unchanged by the `!value` fast path) when the entry
came from an empty array. -/
def deserializeOptPure : Option String → Except Unit JsValue
  | none => .ok .undef
  | some s => deserializeUrlValuePure s

/-- `startsWith` on strings, via the character lists. -/
def strStarts (s p : String) : Bool := p.data.isPrefixOf s.data

/-- `s.slice(n)` on strings. -/
def strDropN (s : String) (n : Nat) : String := ⟨s.data.drop n⟩

/-- The filtering loop of `deserializeUrl` under a non-empty `uniqueKey`
(src/serializer.ts, lines 292–299): keep entries whose key starts with the
prefix, strip it, decode the value, assign into the result object.  A
thrown decode exception aborts the whole extraction. -/
def extractLoop (uniqueKey : String) (acc : Obj) :
    List (String × Option String) → Except Unit Obj
  | [] => .ok acc
  | (k, v) :: t =>
    if strStarts k uniqueKey then
      match deserializeOptPure v with
      | .ok w => extractLoop uniqueKey (objSet acc (strDropN k uniqueKey.length) w) t
      | .error e => .error e
    else extractLoop uniqueKey acc t

/-- The unfiltered loop of `deserializeUrl` (src/serializer.ts, lines
300–304). -/
def extractLoopAll (acc : Obj) : List (String × Option String) → Except Unit Obj
  | [] => .ok acc
  | (k, v) :: t =>
    match deserializeOptPure v with
    | .ok w => extractLoopAll (objSet acc k w) t
    | .error e => .error e

/-- `deserializeUrl` on a plain parameter source (src/serializer.ts, lines
258–313) with no cache: build the entry list and run the (possibly
prefix-filtered) decode loop; `if (uniqueKey)` is JS truthiness, so the
empty prefix takes the unfiltered loop. -/
def deserializeUrlParamsPure (src : SearchParams) (uniqueKey : String) :
    Except Unit Obj :=
  if uniqueKey = "" then extractLoopAll [] (spEntries src)
  else extractLoop uniqueKey [] (spEntries src)

/-- `deserializeUrlValue` on an entry value with the cache threaded. -/
def deserializeOptC (cache : DeserCache) : Option String →
    Except Unit JsValue × DeserCache
  | none => (.ok .undef, cache)
  | some s => deserializeUrlValueC cache s

/-- The prefix-filtering loop with the deserialization cache threaded. -/
def extractLoopC (uniqueKey : String) (cache : DeserCache) (acc : Obj) :
    List (String × Option String) → Except Unit Obj × DeserCache
  | [] => (.ok acc, cache)
  | (k, v) :: t =>
    if strStarts k uniqueKey then
      match deserializeOptC cache v with
      | (.ok w, cache2) =>
        extractLoopC uniqueKey cache2 (objSet acc (strDropN k uniqueKey.length) w) t
      | (.error e, cache2) => (.error e, cache2)
    else extractLoopC uniqueKey cache acc t

/-- The unfiltered loop with the deserialization cache threaded. -/
def extractLoopAllC (cache : DeserCache) (acc : Obj) :
    List (String × Option String) → Except Unit Obj × DeserCache
  | [] => (.ok acc, cache)
  | (k, v) :: t =>
    match deserializeOptC cache v with
    | (.ok w, cache2) => extractLoopAllC cache2 (objSet acc k w) t
    | (.error e, cache2) => (.error e, cache2)

/-- `deserializeUrl` on a plain parameter source with the deserialization
cache threaded. -/
def deserializeUrlParamsC (cache : DeserCache) (src : SearchParams)
    (uniqueKey : String) : Except Unit Obj × DeserCache :=
  if uniqueKey = "" then extractLoopAllC cache [] (spEntries src)
  else extractLoopC uniqueKey cache [] (spEntries src)

/-! ### The query builder (`src/query-builder.ts`) -/

/-- The resolved builder configuration (the `config` field of the
`QueryBuilder` class): defaults, ignore list, per-key mappings, optional
post-processing. -/
structure QueryBuilder where
  defaults : Obj
  ignored : List String
  mappings : List (String × (JsValue → JsValue))
  postProcess : Option (Obj → Obj)

/-- A `QueryBuilderConfig` argument: each field optional (absent fields
fall back to the constructor's seeds). -/
structure QueryBuilderConfig where
  defaultsOpt : Option Obj
  ignoredOpt : Option (List String)
  mappingsOpt : Option (List (String × (JsValue → JsValue)))
  postProcessOpt : Option (Obj → Obj)

/-- The `QueryBuilder` constructor (src/query-builder.ts, lines 21–29):
`{ defaults: {page: 1, pageSize: 10}, ignored: [], mappings: {},
postProcess: undefined, ...config }` — a provided field replaces the seed
outright (spread overwrite, not a merge). -/
def mkQueryBuilder (config : QueryBuilderConfig) : QueryBuilder :=
  { defaults := config.defaultsOpt.getD [("page", .num 1), ("pageSize", .num 10)]
    ignored := config.ignoredOpt.getD []
    mappings := config.mappingsOpt.getD []
    postProcess := config.postProcessOpt }

/-- The no-argument constructor call `new QueryBuilder()`. -/
def defaultQueryBuilder : QueryBuilder :=
  mkQueryBuilder { defaultsOpt := none, ignoredOpt := none,
                   mappingsOpt := none, postProcessOpt := none }

/-- JS object spread `{...a, ...b}`: assign `b`'s entries over `a`
(duplicate keys keep `a`'s position, take `b`'s value). -/
def objMerge (a b : Obj) : Obj :=
  b.foldl (fun acc e => objSet acc e.1 e.2) a

/-- `setDefaults` (src/query-builder.ts, lines 34–37): shallow-merge new
defaults over the existing ones. -/
def setDefaults (qb : QueryBuilder) (d : Obj) : QueryBuilder :=
  { qb with defaults := objMerge qb.defaults d }

/-- `ignore(...properties)` (src/query-builder.ts, lines 42–45): append to
the cumulative ignore list. -/
def addIgnore (qb : QueryBuilder) (properties : List String) : QueryBuilder :=
  { qb with ignored := qb.ignored ++ properties }

/-- Mapping-table assignment used by `addMapping` (last registration per
key wins, like JS object assignment). -/
def mapSet : List (String × (JsValue → JsValue)) → String → (JsValue → JsValue) →
    List (String × (JsValue → JsValue))
  | [], k, f => [(k, f)]
  | (k1, f1) :: rest, k, f =>
    if k1 = k then (k, f) :: rest else (k1, f1) :: mapSet rest k f

/-- `addMapping(property, mapper)` (src/query-builder.ts, lines 50–53). -/
def addMapping (qb : QueryBuilder) (property : String) (mapper : JsValue → JsValue) :
    QueryBuilder :=
  { qb with mappings := mapSet qb.mappings property mapper }

/-- Mapping-table lookup `this.config.mappings[key]` (a registered mapper
function is always truthy). -/
def mapLookup (k : String) : List (String × (JsValue → JsValue)) →
    Option (JsValue → JsValue)
  | [] => none
  | (k1, f) :: rest => if k1 = k then some f else mapLookup k rest

/-- The seed of `build`'s result object:
`{page: 1, pageSize: 10, ...this.config.defaults}`
(src/query-builder.ts, lines 70–74). -/
def buildSeed (qb : QueryBuilder) : Obj :=
  objMerge [("page", .num 1), ("pageSize", .num 10)] qb.defaults

/-- One iteration of `build`'s parameter loop (src/query-builder.ts, lines
77–91): skip `undefined` values and ignored keys, else assign the mapped
(or raw) value. -/
def buildStep (qb : QueryBuilder) (acc : Obj) (e : String × JsValue) : Obj :=
  if e.2 = .undef then acc
  else if qb.ignored.contains e.1 then acc
  else
    match mapLookup e.1 qb.mappings with
    | some f => objSet acc e.1 (f e.2)
    | none => objSet acc e.1 e.2

/-- `build(params)` (src/query-builder.ts, lines 69–99): seed with the
defaults, fold the parameter entries, then apply `postProcess` if set. -/
def build (qb : QueryBuilder) (params : List (String × JsValue)) : Obj :=
  let result := params.foldl (buildStep qb) (buildSeed qb)
  match qb.postProcess with
  | some f => f result
  | none => result

/-! ### The URL update path (`shouldRemoveParam` / `updateUrl`)

Embedded from the `useUrlState` implementation quoted in the repository
README (src/README.md, lines 428–474).  `URLSearchParams` is modelled as
an ordered list of key/value string pairs with `set` (replace the first
occurrence in place, else append) and `delete` (drop every occurrence). -/

/-- `shouldRemoveParam(value)` (src/README.md, lines 428–434): empty
string, `null`/`undefined` (`value == null`), empty array, object without
own enumerable keys (which includes a `Date`), and `false` are removed. -/
def shouldRemoveParam : JsValue → Bool
  | .str s => s = ""
  | .null => true
  | .undef => true
  | .arr l => l.isEmpty
  | .obj fs => fs.isEmpty
  | .date _ => true
  | .bool b => !b
  | .num _ => false

/-- `URLSearchParams.delete(k)`. -/
def uspDelete (params : List (String × String)) (k : String) :
    List (String × String) :=
  params.filter (fun e => e.1 ≠ k)

/-- `URLSearchParams.set(k, v)`: replace the first entry in place and drop
later duplicates, else append. -/
def uspSet : List (String × String) → String → String → List (String × String)
  | [], k, v => [(k, v)]
  | (k1, v1) :: rest, k, v =>
    if k1 = k then (k, v) :: uspDelete rest k else (k1, v1) :: uspSet rest k v

/-- `URLSearchParams.get(k)`: the value of the first entry with key `k`. -/
def paramLookup (k : String) : List (String × String) → Option String
  | [] => none
  | (k1, v) :: t => if k1 = k then some v else paramLookup k t

/-- One update of `updateUrl`'s batch loop (src/README.md, lines 448–464):
the parameter key is `uniqueKey + key`; a removable value deletes it (when
present), any other value writes `serializeUrl(value)` (when it differs
from the current value — the `currentValue` guards of the source). -/
def updateUrlStep (uniqueKey : String) (params : List (String × String))
    (e : String × JsValue) : List (String × String) :=
  if shouldRemoveParam e.2 then
    if paramLookup (uniqueKey ++ e.1) params ≠ none then
      uspDelete params (uniqueKey ++ e.1)
    else params
  else
    if paramLookup (uniqueKey ++ e.1) params ≠ some (serializeUrlPure e.2) then
      uspSet params (uniqueKey ++ e.1) (serializeUrlPure e.2)
    else params

/-- `updateUrl(updates)` (src/README.md, lines 437–474), returning the
parameter list the new location is built from (the observable output of
the url-update path). -/
def updateUrl (uniqueKey : String) (params : List (String × String))
    (updates : List (String × JsValue)) : List (String × String) :=
  updates.foldl (updateUrlStep uniqueKey) params

/-- Whether a remainder list does not begin with a decimal digit (the
context in which `parseInt`'s maximal munch stops exactly at the printed
digits). -/
def restNoDigit : List Char → Bool
  | [] => true
  | c :: _ => !isDigitC c

/-! ## Lemmas: decimal digits -/

theorem toNat_ofNat_digit {n : Nat} (h : n < 10) : (Char.ofNat (48 + n)).toNat = 48 + n := by
  interval_cases n <;> decide

theorem isDigitC_ofNat_digit {n : Nat} (h : n < 10) : isDigitC (Char.ofNat (48 + n)) = true := by
  interval_cases n <;> decide

theorem natToDigitsAux_ne_nil {f n : Nat} (h : n < f) : natToDigitsAux f n ≠ [] := by
  match f with
  | f + 1 =>
    rw [natToDigitsAux]
    split
    · simp
    · simp

theorem natToDigitsAux_all_digits :
    ∀ f n, n < f → ∀ c ∈ natToDigitsAux f n, isDigitC c = true := by
  intro f
  induction f with
  | zero => omega
  | succ f ih =>
    intro n hn c hc
    rw [natToDigitsAux] at hc
    split at hc
    · simp at hc
      subst hc
      exact isDigitC_ofNat_digit (by omega)
    · rw [List.mem_append] at hc
      rcases hc with hc | hc
      · exact ih (n / 10) (by omega) c hc
      · simp at hc
        subst hc
        exact isDigitC_ofNat_digit (by omega)

theorem digitsVal_natToDigitsAux :
    ∀ f n, n < f → digitsVal (natToDigitsAux f n) = n := by
  intro f
  induction f with
  | zero => omega
  | succ f ih =>
    intro n hn
    rw [natToDigitsAux]
    split
    · simp only [digitsVal, List.foldl]
      rw [toNat_ofNat_digit (by omega)]
      omega
    · simp only [digitsVal, List.foldl_append, List.foldl]
      have hrec := ih (n / 10) (by omega)
      simp only [digitsVal] at hrec
      rw [hrec, toNat_ofNat_digit (by omega)]
      omega

theorem natToDigits_ne_nil (n : Nat) : natToDigits n ≠ [] :=
  natToDigitsAux_ne_nil (by omega)

theorem natToDigits_all_digits (n : Nat) : ∀ c ∈ natToDigits n, isDigitC c = true :=
  natToDigitsAux_all_digits (n + 1) n (by omega)

theorem digitsVal_natToDigits (n : Nat) : digitsVal (natToDigits n) = n :=
  digitsVal_natToDigitsAux (n + 1) n (by omega)

theorem takeWhile_all_append {p : Char → Bool} :
    ∀ (l r : List Char), (∀ c ∈ l, p c = true) → (∀ c, r.head? = some c → p c = false) →
      (l ++ r).takeWhile p = l ∧ (l ++ r).dropWhile p = r := by
  intro l
  induction l with
  | nil =>
    intro r _ hr
    match r with
    | [] => exact ⟨rfl, rfl⟩
    | c :: t =>
      have hc : p c = false := hr c rfl
      simp only [List.nil_append, List.takeWhile_cons, List.dropWhile_cons, hc]
      exact ⟨rfl, rfl⟩
  | cons c t ih =>
    intro r hl hr
    have hc : p c = true := hl c (by simp)
    have ht := ih r (fun d hd => hl d (by simp [hd])) hr
    simp only [List.cons_append, List.takeWhile_cons, List.dropWhile_cons, hc, ht.1, ht.2]
    exact ⟨rfl, rfl⟩

theorem digit_ne_dash {c : Char} (h : isDigitC c = true) : ¬(c = '-') := by
  intro e
  rw [e] at h
  exact absurd h (by decide)

theorem restNoDigit_head {rest : List Char} (h : restNoDigit rest = true) :
    ∀ c, rest.head? = some c → isDigitC c = false := by
  intro c hc
  match rest, hc with
  | c :: t, rfl => simpa [restNoDigit] using h

theorem parseInt_print (m : Int) (rest : List Char) (h : restNoDigit rest = true) :
    parseInt (intChars m ++ rest) = some (m, rest) := by
  have hrest := restNoDigit_head h
  by_cases hm : m < 0
  · have htw := takeWhile_all_append (natToDigits m.natAbs) rest
      (natToDigits_all_digits m.natAbs) hrest
    have hne := natToDigits_ne_nil m.natAbs
    have habs : -((m.natAbs : Int)) = m := by omega
    simp only [intChars, if_pos hm, List.cons_append, parseInt, if_pos rfl, htw.1, htw.2,
      List.isEmpty_iff, if_neg hne, digitsVal_natToDigits, habs, if_true]
  · have hne := natToDigits_ne_nil m.natAbs
    have habs : ((m.natAbs : Int)) = m := by omega
    match hd : natToDigits m.natAbs with
    | [] => exact absurd hd hne
    | c :: t =>
      have hall : ∀ d ∈ c :: t, isDigitC d = true := by
        rw [← hd]; exact natToDigits_all_digits m.natAbs
      have htw := takeWhile_all_append (c :: t) rest hall hrest
      have hval : digitsVal (c :: t) = m.natAbs := by
        rw [← hd]; exact digitsVal_natToDigits m.natAbs
      have hcd := hall c (by simp)
      simp only [intChars, if_neg hm, hd, List.cons_append, parseInt,
        if_neg (digit_ne_dash hcd)]
      rw [← List.cons_append, htw.1, htw.2]
      simp only [List.isEmpty_iff, hval, habs]
      rw [if_neg (by simp)]

theorem data_mk (l : List Char) : (⟨l⟩ : String).data = l := rfl

theorem jsCanonicalNumber_print {m : Int} (h : m.natAbs ≤ 2 ^ 53) :
    jsCanonicalNumber? (jsNumToString m) = some m := by
  have hp := parseInt_print m [] (by decide)
  rw [List.append_nil] at hp
  have h9 : m.natAbs ≤ 9007199254740992 := by norm_num at h; exact h
  simp only [jsCanonicalNumber?, jsNumToString, data_mk, hp]
  simp [h9]

theorem jsCanonicalNumber_none_of_head {c : Char} {t : List Char}
    (h1 : isDigitC c = false) (h2 : ¬(c = '-')) :
    jsCanonicalNumber? ⟨c :: t⟩ = none := by
  simp only [jsCanonicalNumber?, data_mk, parseInt, if_neg h2, List.takeWhile_cons, h1]
  rfl

/-! ## Lemmas: the structural codec round-trips -/

theorem mk_data_eta (s : String) : (⟨s.data⟩ : String) = s := rfl

theorem parseStrChars_escape : ∀ (l rest : List Char),
    parseStrChars (escapeChars l ++ dqChar :: rest) = some (l, rest) := by
  intro l
  induction l with
  | nil =>
    intro rest
    show parseStrChars (dqChar :: rest) = some ([], rest)
    rw [parseStrChars.eq_def]
    dsimp only
    rw [if_pos rfl]
  | cons c t ih =>
    intro rest
    by_cases hc : c = dqChar ∨ c = bslashChar
    · rw [show escapeChars (c :: t) = bslashChar :: c :: escapeChars t by
        rw [escapeChars]; rw [if_pos hc]]
      rw [List.cons_append, List.cons_append, parseStrChars.eq_def]
      dsimp only
      rw [if_neg (by decide : ¬(bslashChar = dqChar)), if_pos rfl, ih]
      rfl
    · push_neg at hc
      rw [show escapeChars (c :: t) = c :: escapeChars t by
        rw [escapeChars]; rw [if_neg (by tauto : ¬(c = dqChar ∨ c = bslashChar))]]
      rw [List.cons_append, parseStrChars.eq_def]
      dsimp only
      rw [if_neg hc.1, if_neg hc.2, ih]
      rfl

theorem wVal_pos : ∀ v, 1 ≤ wVal v := by
  intro v
  cases v <;> simp [wVal] <;> omega

theorem wItems_pos : ∀ l, 1 ≤ wItems l := by
  intro l
  cases l with
  | nil => simp [wItems]
  | cons v t => rw [wItems]; omega

theorem wFields_pos : ∀ fs, 1 ≤ wFields fs := by
  intro fs
  match fs with
  | [] => simp [wFields]
  | (k, v) :: t => rw [wFields]; omega

theorem digit_ne {c d : Char} (h : isDigitC c = true) (hd : isDigitC d = false) : ¬(c = d) := by
  intro e
  rw [e, hd] at h
  cases h

theorem intChars_shape (m : Int) :
    ∃ c t, intChars m = c :: t ∧ (isDigitC c = true ∨ c = '-') := by
  by_cases hm : m < 0
  · exact ⟨'-', natToDigits m.natAbs, by simp [intChars, if_pos hm], Or.inr rfl⟩
  · have hne := natToDigits_ne_nil m.natAbs
    match hd : natToDigits m.natAbs with
    | [] => exact absurd hd hne
    | c :: t =>
      refine ⟨c, t, by simp [intChars, if_neg hm, hd], Or.inl ?_⟩
      have := natToDigits_all_digits m.natAbs
      rw [hd] at this
      exact this c (by simp)

theorem hasPre_self_append : ∀ (p r : List Char), hasPre p (p ++ r) = true := by
  intro p
  induction p with
  | nil => intro r; simp [hasPre, List.isPrefixOf]
  | cons c t ih => intro r; simpa [hasPre, List.isPrefixOf] using ih r

theorem hasPre_cons_ne (p0 : Char) {c : Char} (p x : List Char) (h : ¬(p0 = c)) :
    ¬(hasPre (p0 :: p) (c :: x) = true) := by
  simp [hasPre, List.isPrefixOf, h]

theorem datePreChars_explicit :
    datePreChars = ['s', 'e', 'r', 'o', 'v', 'a', 'l', ':', 'D', 'a', 't', 'e', '('] := by
  decide

/-- The head character of a printed value is never a closing bracket
(`]` or `}`) or a separator (`;`), so the item/field loops of the parser
hand it to `parseValue`. -/
theorem printVal_shape (v : JsValue) :
    ∃ c t, printVal v = c :: t ∧ ¬(c = ']') ∧ ¬(c = '}') := by
  match v with
  | .str s => exact ⟨dqChar, _, rfl, by decide, by decide⟩
  | .num m =>
    obtain ⟨c, t, he, hc⟩ := intChars_shape m
    refine ⟨c, t, by simp [printVal, he], ?_, ?_⟩
    · rcases hc with hc | hc
      · exact digit_ne hc (by decide)
      · rw [hc]; decide
    · rcases hc with hc | hc
      · exact digit_ne hc (by decide)
      · rw [hc]; decide
  | .bool true => exact ⟨'t', _, rfl, by decide, by decide⟩
  | .bool false => exact ⟨'f', _, rfl, by decide, by decide⟩
  | .null => exact ⟨'n', _, rfl, by decide, by decide⟩
  | .undef => exact ⟨'u', _, rfl, by decide, by decide⟩
  | .date m =>
    refine ⟨'s', "eroval:Date(".data ++ intChars m ++ [')'], ?_, by decide, by decide⟩
    simp [printVal, datePreChars_explicit]
  | .arr l => exact ⟨'[', _, rfl, by decide, by decide⟩
  | .obj fs => exact ⟨'{', _, rfl, by decide, by decide⟩

theorem numHead_ne {c : Char} (hc : isDigitC c = true ∨ c = '-') (d : Char)
    (hd1 : isDigitC d = false) (hd2 : ¬(('-' : Char) = d)) : ¬(c = d) := by
  rcases hc with hc | hc
  · exact digit_ne hc hd1
  · rw [hc]; exact hd2

theorem restNoDigit_cons {c : Char} (h : isDigitC c = false) (x : List Char) :
    restNoDigit (c :: x) = true := by
  simp [restNoDigit, h]

mutual

/-- Parsing a printed value (with any fuel at least its weight, before any
non-digit remainder) recovers the value. -/
theorem parse_print_val : ∀ (v : JsValue) (n : Nat) (rest : List Char),
    wVal v ≤ n → restNoDigit rest = true →
    parseValue n (printVal v ++ rest) = some (v, rest)
  | v, 0, rest, hw, _ => by have := wVal_pos v; omega
  | .str s, n + 1, rest, hw, hr => by
    rw [show printVal (.str s) ++ rest = dqChar :: (escapeChars s.data ++ dqChar :: rest) by
      simp [printVal]]
    rw [parseValue.eq_def]
    dsimp only
    rw [if_pos rfl, parseStrChars_escape]
    rfl
  | .num m, n + 1, rest, hw, hr => by
    obtain ⟨c, t, he, hc⟩ := intChars_shape m
    rw [show printVal (.num m) ++ rest = c :: (t ++ rest) by simp [printVal, he]]
    rw [parseValue.eq_def]
    dsimp only
    rw [if_neg (numHead_ne hc dqChar (by decide) (by decide)),
      if_neg (numHead_ne hc '[' (by decide) (by decide)),
      if_neg (numHead_ne hc '{' (by decide) (by decide)),
      if_neg (hasPre_cons_ne 't' _ _ (fun e => numHead_ne hc 't' (by decide) (by decide) e.symm)),
      if_neg (hasPre_cons_ne 'f' _ _ (fun e => numHead_ne hc 'f' (by decide) (by decide) e.symm)),
      if_neg (hasPre_cons_ne 'n' _ _ (fun e => numHead_ne hc 'n' (by decide) (by decide) e.symm)),
      if_neg (hasPre_cons_ne 'u' _ _ (fun e => numHead_ne hc 'u' (by decide) (by decide) e.symm))]
    rw [datePreChars_explicit,
      if_neg (hasPre_cons_ne 's' _ _ (fun e => numHead_ne hc 's' (by decide) (by decide) e.symm))]
    rw [show c :: (t ++ rest) = intChars m ++ rest by rw [he]; rfl]
    rw [parseInt_print m rest hr]
  | .bool true, n + 1, rest, hw, hr => by
    rw [show printVal (.bool true) ++ rest = 't' :: 'r' :: 'u' :: 'e' :: rest by
      simp [printVal]]
    rw [parseValue.eq_def]
    dsimp only
    rw [if_neg (by decide), if_neg (by decide), if_neg (by decide),
      if_pos (show hasPre ['t', 'r', 'u', 'e'] ('t' :: 'r' :: 'u' :: 'e' :: rest) = true from
        hasPre_self_append ['t', 'r', 'u', 'e'] rest)]
    rfl
  | .bool false, n + 1, rest, hw, hr => by
    rw [show printVal (.bool false) ++ rest = 'f' :: 'a' :: 'l' :: 's' :: 'e' :: rest by
      simp [printVal]]
    rw [parseValue.eq_def]
    dsimp only
    rw [if_neg (by decide), if_neg (by decide), if_neg (by decide),
      if_neg (hasPre_cons_ne 't' _ _ (by decide)),
      if_pos (show hasPre ['f', 'a', 'l', 's', 'e'] ('f' :: 'a' :: 'l' :: 's' :: 'e' :: rest) =
          true from hasPre_self_append ['f', 'a', 'l', 's', 'e'] rest)]
    rfl
  | .null, n + 1, rest, hw, hr => by
    rw [show printVal .null ++ rest = 'n' :: 'u' :: 'l' :: 'l' :: rest by simp [printVal]]
    rw [parseValue.eq_def]
    dsimp only
    rw [if_neg (by decide), if_neg (by decide), if_neg (by decide),
      if_neg (hasPre_cons_ne 't' _ _ (by decide)), if_neg (hasPre_cons_ne 'f' _ _ (by decide)),
      if_pos (show hasPre ['n', 'u', 'l', 'l'] ('n' :: 'u' :: 'l' :: 'l' :: rest) = true from
        hasPre_self_append ['n', 'u', 'l', 'l'] rest)]
    rfl
  | .undef, n + 1, rest, hw, hr => by
    rw [show printVal .undef ++ rest =
        'u' :: 'n' :: 'd' :: 'e' :: 'f' :: 'i' :: 'n' :: 'e' :: 'd' :: rest by
      simp [printVal]]
    rw [parseValue.eq_def]
    dsimp only
    rw [if_neg (by decide), if_neg (by decide), if_neg (by decide),
      if_neg (hasPre_cons_ne 't' _ _ (by decide)), if_neg (hasPre_cons_ne 'f' _ _ (by decide)),
      if_neg (hasPre_cons_ne 'n' _ _ (by decide)),
      if_pos (show hasPre ['u', 'n', 'd', 'e', 'f', 'i', 'n', 'e', 'd']
            ('u' :: 'n' :: 'd' :: 'e' :: 'f' :: 'i' :: 'n' :: 'e' :: 'd' :: rest) = true from
        hasPre_self_append ['u', 'n', 'd', 'e', 'f', 'i', 'n', 'e', 'd'] rest)]
    rfl
  | .date m, n + 1, rest, hw, hr => by
    rw [show printVal (.date m) ++ rest =
        's' :: 'e' :: 'r' :: 'o' :: 'v' :: 'a' :: 'l' :: ':' :: 'D' :: 'a' :: 't' :: 'e' ::
          '(' :: (intChars m ++ ')' :: rest) by
      simp [printVal, datePreChars_explicit]]
    rw [parseValue.eq_def]
    dsimp only
    rw [if_neg (by decide), if_neg (by decide), if_neg (by decide),
      if_neg (hasPre_cons_ne 't' _ _ (by decide)), if_neg (hasPre_cons_ne 'f' _ _ (by decide)),
      if_neg (hasPre_cons_ne 'n' _ _ (by decide)), if_neg (hasPre_cons_ne 'u' _ _ (by decide)),
      datePreChars_explicit,
      if_pos (show hasPre ['s', 'e', 'r', 'o', 'v', 'a', 'l', ':', 'D', 'a', 't', 'e', '(']
            ('s' :: 'e' :: 'r' :: 'o' :: 'v' :: 'a' :: 'l' :: ':' :: 'D' :: 'a' :: 't' :: 'e' ::
              '(' :: (intChars m ++ ')' :: rest)) = true from
        hasPre_self_append ['s', 'e', 'r', 'o', 'v', 'a', 'l', ':', 'D', 'a', 't', 'e', '(']
          (intChars m ++ ')' :: rest))]
    rw [show ('s' :: 'e' :: 'r' :: 'o' :: 'v' :: 'a' :: 'l' :: ':' :: 'D' :: 'a' :: 't' :: 'e' ::
        '(' :: (intChars m ++ ')' :: rest)).drop 13 = intChars m ++ ')' :: rest by rfl]
    rw [parseInt_print m (')' :: rest) (restNoDigit_cons (by decide) rest)]
    dsimp only
    rw [if_pos rfl]
  | .arr l, n + 1, rest, hw, hr => by
    rw [show printVal (.arr l) ++ rest = '[' :: (printItemsC l ++ ']' :: rest) by
      simp [printVal]]
    rw [parseValue.eq_def]
    dsimp only
    rw [if_neg (by decide), if_pos rfl]
    rw [parse_print_items l n rest (by rw [wVal] at hw; omega)]
  | .obj fs, n + 1, rest, hw, hr => by
    rw [show printVal (.obj fs) ++ rest = '{' :: (printFieldsC fs ++ '}' :: rest) by
      simp [printVal]]
    rw [parseValue.eq_def]
    dsimp only
    rw [if_neg (by decide), if_neg (by decide), if_pos rfl]
    rw [parse_print_fields fs n rest (by rw [wVal] at hw; omega)]

/-- Parsing printed items followed by `]` recovers the item list. -/
theorem parse_print_items : ∀ (l : List JsValue) (n : Nat) (rest : List Char),
    wItems l ≤ n → parseItemsL n (printItemsC l ++ ']' :: rest) = some (l, rest)
  | l, 0, rest, hw => by have := wItems_pos l; omega
  | [], n + 1, rest, hw => by
    rw [show printItemsC [] ++ ']' :: rest = ']' :: rest by rfl]
    rw [parseItemsL.eq_def]
    dsimp only
    rw [if_pos rfl]
  | v :: t, n + 1, rest, hw => by
    obtain ⟨c, t0, hpv, hc1, hc2⟩ := printVal_shape v
    rw [show printItemsC (v :: t) ++ ']' :: rest =
        c :: (t0 ++ ';' :: (printItemsC t ++ ']' :: rest)) by
      simp [printItemsC, hpv]]
    rw [parseItemsL.eq_def]
    dsimp only
    rw [if_neg hc1]
    rw [show c :: (t0 ++ ';' :: (printItemsC t ++ ']' :: rest)) =
        printVal v ++ ';' :: (printItemsC t ++ ']' :: rest) by rw [hpv]; rfl]
    rw [parse_print_val v n (';' :: (printItemsC t ++ ']' :: rest))
      (by rw [wItems] at hw; omega) (restNoDigit_cons (by decide) _)]
    dsimp only
    rw [if_pos rfl]
    rw [parse_print_items t n rest (by rw [wItems] at hw; omega)]

/-- Parsing printed fields followed by `}` recovers the field list. -/
theorem parse_print_fields : ∀ (fs : List (String × JsValue)) (n : Nat) (rest : List Char),
    wFields fs ≤ n → parseFieldsL n (printFieldsC fs ++ '}' :: rest) = some (fs, rest)
  | fs, 0, rest, hw => by have := wFields_pos fs; omega
  | [], n + 1, rest, hw => by
    rw [show printFieldsC [] ++ '}' :: rest = '}' :: rest by rfl]
    rw [parseFieldsL.eq_def]
    dsimp only
    rw [if_pos rfl]
  | (k, v) :: t, n + 1, rest, hw => by
    rw [show printFieldsC ((k, v) :: t) ++ '}' :: rest =
        dqChar :: (escapeChars k.data ++ dqChar ::
          (':' :: (printVal v ++ ';' :: (printFieldsC t ++ '}' :: rest)))) by
      simp [printFieldsC]]
    rw [parseFieldsL.eq_def]
    dsimp only
    rw [if_neg (by decide), if_pos rfl, parseStrChars_escape]
    dsimp only
    rw [if_pos rfl]
    rw [parse_print_val v n (';' :: (printFieldsC t ++ '}' :: rest))
      (by rw [wFields] at hw; omega) (restNoDigit_cons (by decide) _)]
    dsimp only
    rw [if_pos rfl]
    rw [parse_print_fields t n rest (by rw [wFields] at hw; omega)]

end

mutual

/-- The parse weight of a value is dominated by its printed length. -/
theorem wVal_le_print : ∀ v : JsValue, wVal v ≤ 2 * (printVal v).length
  | .str s => by simp [wVal, printVal]; omega
  | .num m => by
    obtain ⟨c, t, he, _⟩ := intChars_shape m
    rw [wVal]
    simp [printVal, he]
    omega
  | .bool true => by rw [wVal]; decide
  | .bool false => by rw [wVal]; decide
  | .null => by rw [wVal]; decide
  | .undef => by rw [wVal]; decide
  | .date m => by rw [wVal]; simp [printVal]; omega
  | .arr l => by
    have h := wItems_le_print l
    rw [wVal]
    simp [printVal]
    omega
  | .obj fs => by
    have h := wFields_le_print fs
    rw [wVal]
    simp [printVal]
    omega

/-- The parse weight of an item list is dominated by its printed length. -/
theorem wItems_le_print : ∀ l : List JsValue, wItems l ≤ 2 * (printItemsC l).length + 1
  | [] => by rw [wItems]; simp [printItemsC]
  | v :: t => by
    have h1 := wVal_le_print v
    have h2 := wItems_le_print t
    rw [wItems]
    simp [printItemsC]
    omega

/-- The parse weight of a field list is dominated by its printed length. -/
theorem wFields_le_print : ∀ fs : List (String × JsValue),
    wFields fs ≤ 2 * (printFieldsC fs).length + 1
  | [] => by rw [wFields]; simp [printFieldsC]
  | (k, v) :: t => by
    have h1 := wVal_le_print v
    have h2 := wFields_le_print t
    rw [wFields]
    simp [printFieldsC]
    omega

end

/-- The structural codec round-trips every value of the model. -/
theorem serovalDeserialize_serialize (v : JsValue) :
    serovalDeserialize (serovalSerialize v) = .ok v := by
  have hb := wVal_le_print v
  have hp : parseValue (2 * (printVal v).length + 2) (printVal v) = some (v, []) := by
    have h := parse_print_val v (2 * (printVal v).length + 2) [] (by omega) rfl
    rwa [List.append_nil] at h
  rw [serovalDeserialize, serovalSerialize, data_mk, hp]

/-! ## Lemmas: the URI component codec round-trips -/

theorem char_valid_nat (c : Char) :
    c.toNat < 55296 ∨ (57344 ≤ c.toNat ∧ c.toNat < 1114112) := by
  have h := c.valid
  rcases h with h | h
  · exact Or.inl h
  · exact Or.inr ⟨h.1, h.2⟩

theorem hexVal_hexDigitChar {b : Nat} (h : b < 16) : hexVal? (hexDigitChar b) = some b := by
  interval_cases b <;> decide

theorem uriUnres_ne_pct {c : Char} (hu : isUriUnreserved c = true) : ¬(c = pctChar) := by
  intro e
  rw [e] at hu
  exact absurd hu (by decide)

theorem readPctByte_enc {b : Nat} (h : b < 256) (r : List Char) :
    readPctByte (pctEncodeByte b ++ r) = some (b, r) := by
  show readPctByte (pctChar :: hexDigitChar (b / 16) :: hexDigitChar (b % 16) :: r) = some (b, r)
  rw [readPctByte.eq_def]
  dsimp only
  rw [if_pos rfl]
  rw [hexVal_hexDigitChar (show b / 16 < 16 by omega),
    hexVal_hexDigitChar (show b % 16 < 16 by omega)]
  dsimp only
  rw [show 16 * (b / 16) + b % 16 = b by omega]

theorem decodeURIGo_cons (f : Nat) (c : Char) (rest : List Char) :
    decodeURIGo (f + 1) (c :: rest) =
      if c = pctChar then
        match decodePctChar (c :: rest) with
        | some p => (decodeURIGo f p.2).map (fun l => p.1 :: l)
        | none => none
      else (decodeURIGo f rest).map (fun l => c :: l) := rfl

theorem decodeURIGo_cons_notpct {c : Char} (h : ¬(c = pctChar)) (f : Nat) (rest : List Char) :
    decodeURIGo (f + 1) (c :: rest) = (decodeURIGo f rest).map (fun l => c :: l) := by
  rw [decodeURIGo_cons, if_neg h]

/-- Decoding the percent-escaped UTF-8 bytes of any character recovers it. -/
theorem decodePctChar_utf8 (c : Char) (rest : List Char) :
    decodePctChar (((utf8Bytes c).map pctEncodeByte).flatten ++ rest) = some (c, rest) := by
  have hv := char_valid_nat c
  by_cases h1 : c.toNat < 128
  · rw [show utf8Bytes c = [c.toNat] from by rw [utf8Bytes]; rw [if_pos h1]]
    simp only [List.map, List.flatten, List.append_nil]
    rw [decodePctChar]
    rw [readPctByte_enc (show c.toNat < 256 by omega)]
    dsimp only
    rw [if_pos h1, Char.ofNat_toNat]
  · by_cases h2 : c.toNat < 2048
    · rw [show utf8Bytes c = [192 + c.toNat / 64, 128 + c.toNat % 64] from by
        rw [utf8Bytes]; rw [if_neg h1, if_pos h2]]
      simp only [List.map, List.flatten, List.append_nil, List.append_assoc]
      rw [decodePctChar]
      rw [readPctByte_enc (show 192 + c.toNat / 64 < 256 by omega)]
      dsimp only
      rw [if_neg (show ¬(192 + c.toNat / 64 < 128) by omega),
        if_pos (show 194 ≤ 192 + c.toNat / 64 ∧ 192 + c.toNat / 64 ≤ 223 by omega)]
      rw [readPctByte_enc (show 128 + c.toNat % 64 < 256 by omega)]
      dsimp only
      rw [if_pos (show 128 ≤ 128 + c.toNat % 64 ∧ 128 + c.toNat % 64 ≤ 191 by omega)]
      rw [show (192 + c.toNat / 64 - 192) * 64 + (128 + c.toNat % 64 - 128) = c.toNat by omega,
        Char.ofNat_toNat]
    · by_cases h3 : c.toNat < 65536
      · rw [show utf8Bytes c =
            [224 + c.toNat / 4096, 128 + c.toNat / 64 % 64, 128 + c.toNat % 64] from by
          rw [utf8Bytes]; rw [if_neg h1, if_neg h2, if_pos h3]]
        simp only [List.map, List.flatten, List.append_nil, List.append_assoc]
        rw [decodePctChar]
        rw [readPctByte_enc (show 224 + c.toNat / 4096 < 256 by omega)]
        dsimp only
        rw [if_neg (show ¬(224 + c.toNat / 4096 < 128) by omega),
          if_neg (show ¬(194 ≤ 224 + c.toNat / 4096 ∧ 224 + c.toNat / 4096 ≤ 223) by omega),
          if_pos (show 224 ≤ 224 + c.toNat / 4096 ∧ 224 + c.toNat / 4096 ≤ 239 by omega)]
        rw [readPctByte_enc (show 128 + c.toNat / 64 % 64 < 256 by omega)]
        dsimp only
        rw [if_pos (show 128 ≤ 128 + c.toNat / 64 % 64 ∧ 128 + c.toNat / 64 % 64 ≤ 191 ∧
            ¬(224 + c.toNat / 4096 = 224 ∧ 128 + c.toNat / 64 % 64 < 160) ∧
            ¬(224 + c.toNat / 4096 = 237 ∧ 159 < 128 + c.toNat / 64 % 64) by omega)]
        rw [readPctByte_enc (show 128 + c.toNat % 64 < 256 by omega)]
        dsimp only
        rw [if_pos (show 128 ≤ 128 + c.toNat % 64 ∧ 128 + c.toNat % 64 ≤ 191 by omega)]
        rw [show (224 + c.toNat / 4096 - 224) * 4096 + (128 + c.toNat / 64 % 64 - 128) * 64 +
            (128 + c.toNat % 64 - 128) = c.toNat by omega, Char.ofNat_toNat]
      · have h4 : c.toNat < 1114112 := by omega
        rw [show utf8Bytes c = [240 + c.toNat / 262144, 128 + c.toNat / 4096 % 64,
            128 + c.toNat / 64 % 64, 128 + c.toNat % 64] from by
          rw [utf8Bytes]; rw [if_neg h1, if_neg h2, if_neg h3]]
        simp only [List.map, List.flatten, List.append_nil, List.append_assoc]
        rw [decodePctChar]
        rw [readPctByte_enc (show 240 + c.toNat / 262144 < 256 by omega)]
        dsimp only
        rw [if_neg (show ¬(240 + c.toNat / 262144 < 128) by omega),
          if_neg (show ¬(194 ≤ 240 + c.toNat / 262144 ∧ 240 + c.toNat / 262144 ≤ 223) by omega),
          if_neg (show ¬(224 ≤ 240 + c.toNat / 262144 ∧ 240 + c.toNat / 262144 ≤ 239) by omega),
          if_pos (show 240 ≤ 240 + c.toNat / 262144 ∧ 240 + c.toNat / 262144 ≤ 244 by omega)]
        rw [readPctByte_enc (show 128 + c.toNat / 4096 % 64 < 256 by omega)]
        dsimp only
        rw [if_pos (show 128 ≤ 128 + c.toNat / 4096 % 64 ∧ 128 + c.toNat / 4096 % 64 ≤ 191 ∧
            ¬(240 + c.toNat / 262144 = 240 ∧ 128 + c.toNat / 4096 % 64 < 144) ∧
            ¬(240 + c.toNat / 262144 = 244 ∧ 143 < 128 + c.toNat / 4096 % 64) by omega)]
        rw [readPctByte_enc (show 128 + c.toNat / 64 % 64 < 256 by omega)]
        dsimp only
        rw [if_pos (show 128 ≤ 128 + c.toNat / 64 % 64 ∧ 128 + c.toNat / 64 % 64 ≤ 191 by omega)]
        rw [readPctByte_enc (show 128 + c.toNat % 64 < 256 by omega)]
        dsimp only
        rw [if_pos (show 128 ≤ 128 + c.toNat % 64 ∧ 128 + c.toNat % 64 ≤ 191 by omega)]
        rw [show (240 + c.toNat / 262144 - 240) * 262144 + (128 + c.toNat / 4096 % 64 - 128) *
            4096 + (128 + c.toNat / 64 % 64 - 128) * 64 + (128 + c.toNat % 64 - 128) = c.toNat
          by omega, Char.ofNat_toNat]

theorem utf8_enc_head (c : Char) :
    ∃ t, ((utf8Bytes c).map pctEncodeByte).flatten = pctChar :: t := by
  rw [utf8Bytes]
  split_ifs <;> exact ⟨_, rfl⟩

/-- Decoding one encoded character from the front of a list consumes it
and one unit of fuel. -/
theorem decodeURIGo_enc_cons (c : Char) (f : Nat) (rest : List Char) :
    decodeURIGo (f + 1) (encodeCharURI c ++ rest) =
      (decodeURIGo f rest).map (fun l => c :: l) := by
  by_cases hu : isUriUnreserved c = true
  · rw [encodeCharURI, if_pos hu]
    exact decodeURIGo_cons_notpct (uriUnres_ne_pct hu) f rest
  · rw [encodeCharURI, if_neg hu]
    obtain ⟨t, ht⟩ := utf8_enc_head c
    rw [show ((utf8Bytes c).map pctEncodeByte).flatten ++ rest = pctChar :: (t ++ rest) from by
      rw [ht]; rfl]
    rw [decodeURIGo_cons, if_pos rfl]
    rw [show pctChar :: (t ++ rest) = ((utf8Bytes c).map pctEncodeByte).flatten ++ rest from by
      rw [ht]; rfl]
    rw [decodePctChar_utf8 c rest]

theorem encodeCharURI_ne_nil (c : Char) : encodeCharURI c ≠ [] := by
  rw [encodeCharURI]
  split_ifs with hu
  · simp
  · obtain ⟨t, ht⟩ := utf8_enc_head c
    rw [ht]
    simp

theorem length_le_encodeList : ∀ l : List Char,
    l.length ≤ ((l.map encodeCharURI).flatten).length := by
  intro l
  induction l with
  | nil => simp
  | cons c t ih =>
    simp only [List.map, List.flatten, List.length_cons, List.length_append]
    have h1 : 1 ≤ (encodeCharURI c).length := by
      have := encodeCharURI_ne_nil c
      cases hc : encodeCharURI c with
      | nil => exact absurd hc this
      | cons a b => simp
    omega

theorem decodeURIGo_encodeList : ∀ (l : List Char) (f : Nat), l.length < f →
    decodeURIGo f ((l.map encodeCharURI).flatten) = some l := by
  intro l
  induction l with
  | nil =>
    intro f h
    match f, h with
    | f + 1, _ => rfl
  | cons c t ih =>
    intro f h
    match f, h with
    | f + 1, h =>
      simp only [List.map, List.flatten]
      rw [decodeURIGo_enc_cons c f ((t.map encodeCharURI).flatten)]
      rw [ih f (by simp at h; omega)]
      rfl

/-- `decodeURIComponent` inverts `encodeURIComponent`. -/
theorem decodeURI_encodeURI (s : String) :
    decodeURIComponent (encodeURIComponent s) = some s := by
  rw [encodeURIComponent, decodeURIComponent, data_mk]
  rw [decodeURIGo_encodeList s.data _ (by have := length_le_encodeList s.data; omega)]
  rfl

theorem decodeURIGo_noPct : ∀ (l : List Char) (f : Nat), l.length < f →
    (∀ c ∈ l, ¬(c = pctChar)) → decodeURIGo f l = some l := by
  intro l
  induction l with
  | nil =>
    intro f h _
    match f, h with
    | f + 1, _ => rfl
  | cons c t ih =>
    intro f h hall
    match f, h with
    | f + 1, h =>
      rw [decodeURIGo_cons, if_neg (hall c (by simp))]
      rw [ih f (by simp at h; omega) (fun d hd => hall d (by simp [hd]))]
      rfl

/-- `decodeURIComponent` is the identity on percent-free strings. -/
theorem decodeURI_noPct (s : String) (h : ∀ c ∈ s.data, ¬(c = pctChar)) :
    decodeURIComponent s = some s := by
  rw [decodeURIComponent]
  rw [decodeURIGo_noPct s.data (s.data.length + 1) (by omega) h]
  rfl

theorem encodeURI_ne_empty {s : String} (h : ¬(s = "")) : ¬(encodeURIComponent s = "") := by
  intro e
  apply h
  cases s with
  | mk d =>
    cases d with
    | nil => rfl
    | cons c t =>
      exfalso
      have hd : ((List.cons c t).map encodeCharURI).flatten = [] := congrArg String.data e
      simp only [List.map, List.flatten] at hd
      exact absurd (List.append_eq_nil.mp hd).1 (encodeCharURI_ne_nil c)

/-! ## Lemmas: the value codec -/

theorem listContains_of_hasPre {p x : List Char} (h : hasPre p x = true) :
    listContains x p = true := by
  rw [listContains, List.any_eq_true]
  exact ⟨x, (List.mem_tails x x).mpr (List.suffix_refl x), h⟩

theorem mk_cons_ne_lit {c : Char} {t : List Char} {lit : String} {c2 : Char} {t2 : List Char}
    (hlit : lit.data = c2 :: t2) (h : ¬(c = c2)) : ¬((⟨c :: t⟩ : String) = lit) := by
  intro e
  have hdata := congrArg String.data e
  rw [data_mk, hlit] at hdata
  injection hdata with h1 _
  exact h h1

/-- One-step unfolding of `deserializeUrlValuePure` on a non-empty input
whose URL-unescape succeeds: the literal checks, the numeric check, the
plain-string fast path, and the structural deserializer with its
swallow-to-text `catch`. -/
theorem deserializePure_unfold {s d : String} (hs : ¬(s = ""))
    (hd : decodeURIComponent s = some d) :
    deserializeUrlValuePure s =
      if d = "true" then .ok (.bool true)
      else if d = "false" then .ok (.bool false)
      else if d = "null" then .ok .null
      else if d = "undefined" then .ok .undef
      else
        match jsCanonicalNumber? d with
        | some n => .ok (.num n)
        | none =>
          if compositeLooking d = false then .ok (.str d)
          else
            match serovalDeserialize d with
            | .ok v => .ok v
            | .error _ => .ok (.str d) := by
  rw [deserializeUrlValuePure, if_neg hs, deserializeTryPure, hd]
  dsimp only
  cases hn : jsCanonicalNumber? d with
  | some n => split_ifs <;> rfl
  | none =>
    cases hsv : serovalDeserialize d with
    | ok v => split_ifs <;> rfl
    | error e => split_ifs <;> rfl

theorem mk_cons_ne_empty {c : Char} {t : List Char} : ¬((⟨c :: t⟩ : String) = "") := by
  intro e
  have hdata := congrArg String.data e
  rw [data_mk] at hdata
  exact List.noConfusion hdata

/-- Common round-trip argument for the composite values (array, object,
date): their serialization is non-empty, is not a literal or a number, and
is recognized as composite, so decode hands it to the structural
deserializer, which inverts the serializer. -/
theorem composite_roundtrip (v : JsValue) (c : Char) (t : List Char)
    (hp : printVal v = c :: t)
    (hser : serializeUrlPure v = encodeURIComponent (serovalSerialize v))
    (hne : ¬(c = 't')) (hne2 : ¬(c = 'f')) (hne3 : ¬(c = 'n')) (hne4 : ¬(c = 'u'))
    (hdig : isDigitC c = false) (hdash : ¬(c = '-'))
    (hcomp : compositeLooking (serovalSerialize v) = true) :
    deserializeUrlValuePure (serializeUrlPure v) = .ok v := by
  have hmk : serovalSerialize v = ⟨c :: t⟩ := by rw [serovalSerialize, hp]
  have hne0 : ¬(serovalSerialize v = "") := by rw [hmk]; exact mk_cons_ne_empty
  rw [hser]
  rw [deserializePure_unfold (encodeURI_ne_empty hne0) (decodeURI_encodeURI (serovalSerialize v))]
  rw [if_neg (hmk ▸ mk_cons_ne_lit rfl hne), if_neg (hmk ▸ mk_cons_ne_lit rfl hne2),
    if_neg (hmk ▸ mk_cons_ne_lit rfl hne3), if_neg (hmk ▸ mk_cons_ne_lit rfl hne4)]
  rw [show jsCanonicalNumber? (serovalSerialize v) = none from by
    rw [hmk]; exact jsCanonicalNumber_none_of_head hdig hdash]
  dsimp only
  rw [if_neg (show ¬(compositeLooking (serovalSerialize v) = false) from by
    intro e; rw [hcomp] at e; exact Bool.noConfusion e)]
  rw [serovalDeserialize_serialize v]

/-- The set of values on which the codec round-trips (the amended C1): all
booleans, exact integers, composites, and strings that the decoder does
not reinterpret (non-empty, not a literal, not a canonical number, not
composite-looking); `null` and `undefined` are excluded — both encode to
`""`, which decodes to the string `""`. -/
def roundTrippable : JsValue → Bool
  | .str s =>
    !(s == "") && !(s == "true") && !(s == "false") && !(s == "null") &&
      !(s == "undefined") && (jsCanonicalNumber? s).isNone && !(compositeLooking s)
  | .num n => decide (n.natAbs ≤ 2 ^ 53)
  | .bool _ => true
  | .null => false
  | .undef => false
  | .arr _ => true
  | .obj _ => true
  | .date _ => true

theorem compositeLooking_arr (l : List JsValue) :
    compositeLooking (serovalSerialize (.arr l)) = true := by
  rw [serovalSerialize, compositeLooking, data_mk]
  rw [show printVal (.arr l) = '[' :: (printItemsC l ++ [']']) from rfl]
  simp [List.isPrefixOf]

theorem compositeLooking_obj (fs : List (String × JsValue)) :
    compositeLooking (serovalSerialize (.obj fs)) = true := by
  rw [serovalSerialize, compositeLooking, data_mk]
  rw [show printVal (.obj fs) = '{' :: (printFieldsC fs ++ ['}']) from rfl]
  simp [List.isPrefixOf]

theorem compositeLooking_date (m : Int) :
    compositeLooking (serovalSerialize (.date m)) = true := by
  rw [serovalSerialize, compositeLooking, data_mk]
  have hcont : listContains (printVal (.date m)) serovalMark = true := by
    apply listContains_of_hasPre
    rw [show printVal (.date m) =
        's' :: 'e' :: 'r' :: 'o' :: 'v' :: 'a' :: 'l' :: ':' :: 'D' :: 'a' :: 't' :: 'e' ::
          '(' :: (intChars m ++ [')']) from by
      simp [printVal, datePreChars_explicit]]
    rw [show serovalMark = ['s', 'e', 'r', 'o', 'v', 'a', 'l', ':'] from by decide]
    simp [hasPre, List.isPrefixOf]
  rw [hcont]
  simp

theorem date_shape (m : Int) :
    printVal (.date m) = 's' :: ('e' :: 'r' :: 'o' :: 'v' :: 'a' :: 'l' :: ':' :: 'D' :: 'a' ::
      't' :: 'e' :: '(' :: (intChars m ++ [')'])) := by
  simp [printVal, datePreChars_explicit]

/-- The codec round-trips every `roundTrippable` value. -/
theorem roundtrip_on_roundTrippable (v : JsValue) (h : roundTrippable v = true) :
    deserializeUrlValuePure (serializeUrlPure v) = .ok v := by
  match v with
  | .str s =>
    simp only [roundTrippable, Bool.and_eq_true, Bool.not_eq_true', beq_eq_false_iff_ne,
      ne_eq, Option.isNone_iff_eq_none] at h
    obtain ⟨⟨⟨⟨⟨⟨h1, h2⟩, h3⟩, h4⟩, h5⟩, h6⟩, h7⟩ := h
    rw [show serializeUrlPure (.str s) = encodeURIComponent s from rfl]
    rw [deserializePure_unfold (encodeURI_ne_empty h1) (decodeURI_encodeURI s)]
    rw [if_neg h2, if_neg h3, if_neg h4, if_neg h5, h6]
    dsimp only
    rw [if_pos h7]
  | .num n =>
    have hb : n.natAbs ≤ 2 ^ 53 := of_decide_eq_true h
    obtain ⟨c, t, he, hc⟩ := intChars_shape n
    have hmk : jsNumToString n = ⟨c :: t⟩ := by rw [jsNumToString, he]
    have hne0 : ¬(jsNumToString n = "") := by rw [hmk]; exact mk_cons_ne_empty
    rw [show serializeUrlPure (.num n) = encodeURIComponent (jsNumToString n) from rfl]
    rw [deserializePure_unfold (encodeURI_ne_empty hne0) (decodeURI_encodeURI _)]
    rw [if_neg (hmk ▸ mk_cons_ne_lit rfl (numHead_ne hc 't' (by decide) (by decide))),
      if_neg (hmk ▸ mk_cons_ne_lit rfl (numHead_ne hc 'f' (by decide) (by decide))),
      if_neg (hmk ▸ mk_cons_ne_lit rfl (numHead_ne hc 'n' (by decide) (by decide))),
      if_neg (hmk ▸ mk_cons_ne_lit rfl (numHead_ne hc 'u' (by decide) (by decide)))]
    rw [jsCanonicalNumber_print hb]
  | .bool true =>
    rw [show serializeUrlPure (.bool true) = encodeURIComponent "true" from rfl]
    rw [deserializePure_unfold (encodeURI_ne_empty (by decide)) (decodeURI_encodeURI _)]
    rw [if_pos rfl]
  | .bool false =>
    rw [show serializeUrlPure (.bool false) = encodeURIComponent "false" from rfl]
    rw [deserializePure_unfold (encodeURI_ne_empty (by decide)) (decodeURI_encodeURI _)]
    rw [if_neg (by decide), if_pos rfl]
  | .arr l =>
    exact composite_roundtrip (.arr l) '[' (printItemsC l ++ [']']) rfl rfl
      (by decide) (by decide) (by decide) (by decide) (by decide) (by decide)
      (compositeLooking_arr l)
  | .obj fs =>
    exact composite_roundtrip (.obj fs) '{' (printFieldsC fs ++ ['}']) rfl rfl
      (by decide) (by decide) (by decide) (by decide) (by decide) (by decide)
      (compositeLooking_obj fs)
  | .date m =>
    exact composite_roundtrip (.date m) 's'
      ('e' :: 'r' :: 'o' :: 'v' :: 'a' :: 'l' :: ':' :: 'D' :: 'a' :: 't' :: 'e' :: '(' ::
        (intChars m ++ [')'])) (date_shape m) rfl
      (by decide) (by decide) (by decide) (by decide) (by decide) (by decide)
      (compositeLooking_date m)

/-- Decoding is the identity on strings the fast path classifies as plain
text: no percent escapes, not a literal, not a canonical number, not
composite-looking. -/
theorem decode_fixed_point {t : String}
    (hp : ∀ c ∈ t.data, ¬(c = pctChar))
    (h1 : ¬(t = "true")) (h2 : ¬(t = "false")) (h3 : ¬(t = "null")) (h4 : ¬(t = "undefined"))
    (h5 : jsCanonicalNumber? t = none) (h6 : compositeLooking t = false) :
    deserializeUrlValuePure t = .ok (.str t) := by
  by_cases h0 : t = ""
  · rw [h0]
    rfl
  · rw [deserializePure_unfold h0 (decodeURI_noPct t hp)]
    rw [if_neg h1, if_neg h2, if_neg h3, if_neg h4, h5]
    dsimp only
    rw [if_pos h6]

theorem parseInt_shape {cs r : List Char} {m : Int} (h : parseInt cs = some (m, r)) :
    ∃ pre, cs = pre ++ r ∧ ¬(pre = []) ∧ ∀ c ∈ pre, (isDigitC c = true ∨ c = '-') := by
  match cs with
  | [] => exact Option.noConfusion h
  | c :: rest =>
    rw [parseInt.eq_def] at h
    dsimp only at h
    by_cases h1 : c = '-'
    · rw [if_pos h1] at h
      by_cases h2 : (rest.takeWhile isDigitC).isEmpty = true
      · rw [if_pos h2] at h
        exact Option.noConfusion h
      · rw [if_neg h2] at h
        have h4 := Option.some.inj h
        rw [Prod.ext_iff] at h4
        have hr : r = rest.dropWhile isDigitC := h4.2.symm
        refine ⟨'-' :: rest.takeWhile isDigitC, ?_, by simp, ?_⟩
        · rw [hr, h1, List.cons_append, List.takeWhile_append_dropWhile]
        · intro d hd
          rcases List.mem_cons.mp hd with hd | hd
          · exact Or.inr hd
          · exact Or.inl (List.mem_takeWhile_imp hd)
    · rw [if_neg h1] at h
      by_cases h2 : ((c :: rest).takeWhile isDigitC).isEmpty = true
      · rw [if_pos h2] at h
        exact Option.noConfusion h
      · rw [if_neg h2] at h
        have h4 := Option.some.inj h
        rw [Prod.ext_iff] at h4
        have hr : r = (c :: rest).dropWhile isDigitC := h4.2.symm
        refine ⟨(c :: rest).takeWhile isDigitC, ?_, ?_, ?_⟩
        · rw [hr, List.takeWhile_append_dropWhile]
        · intro e
          rw [e] at h2
          exact h2 rfl
        · intro d hd
          exact Or.inl (List.mem_takeWhile_imp hd)

theorem parseValue_num_shape : ∀ {n : Nat} {cs r : List Char} {m : Int},
    parseValue n cs = some (.num m, r) →
    ∃ pre, cs = pre ++ r ∧ ¬(pre = []) ∧ ∀ c ∈ pre, (isDigitC c = true ∨ c = '-') := by
  intro n cs r m h
  match n, cs with
  | 0, cs => exact Option.noConfusion h
  | _ + 1, [] => exact Option.noConfusion h
  | n + 1, c :: rest =>
    rw [parseValue.eq_def] at h
    dsimp only at h
    split_ifs at h with h1 h2 h3 h4 h5 h6 h7 h8
    · cases hps : parseStrChars rest with
      | none => rw [hps] at h; exact Option.noConfusion h
      | some p => rw [hps] at h; simp at h
    · cases hit : parseItemsL n rest with
      | none => rw [hit] at h; exact Option.noConfusion h
      | some p =>
        match p with
        | (l, r2) => rw [hit] at h; simp at h
    · cases hit : parseFieldsL n rest with
      | none => rw [hit] at h; exact Option.noConfusion h
      | some p =>
        match p with
        | (fs, r2) => rw [hit] at h; simp at h
    · simp at h
    · simp at h
    · simp at h
    · simp at h
    · cases hip : parseInt ((c :: rest).drop 13) with
      | none => rw [hip] at h; exact Option.noConfusion h
      | some p =>
        match p with
        | (m2, []) => rw [hip] at h; exact Option.noConfusion h
        | (m2, rp :: r3) =>
          rw [hip] at h
          dsimp only at h
          split_ifs at h
          · simp at h
    · cases hip : parseInt (c :: rest) with
      | none => rw [hip] at h; exact Option.noConfusion h
      | some p =>
        match p with
        | (m2, r2) =>
          rw [hip] at h
          dsimp only at h
          have h9 := Option.some.inj h
          rw [Prod.ext_iff] at h9
          have hm : m2 = m := by
            have h10 := h9.1
            injection h10
          have hr : r2 = r := h9.2
          have hshape := parseInt_shape hip
          rw [hr] at hshape
          exact hshape

theorem isPrefixOf_single_head {c0 : Char} {x : List Char}
    (h : List.isPrefixOf [c0] x = true) : ∃ t, x = c0 :: t := by
  match x with
  | [] => exact absurd h (by simp [List.isPrefixOf])
  | c :: t =>
    refine ⟨t, ?_⟩
    simp [List.isPrefixOf] at h
    rw [h]

theorem listContains_head_mem {x : List Char} {c0 : Char} {p : List Char}
    (h : listContains x (c0 :: p) = true) : c0 ∈ x := by
  rw [listContains, List.any_eq_true] at h
  obtain ⟨t, ht, hpre⟩ := h
  match t with
  | [] => exact absurd hpre (by simp [List.isPrefixOf])
  | c :: t2 =>
    have hc : c0 = c := by
      simp [List.isPrefixOf] at hpre
      exact hpre.1
    have hsub := ((List.mem_tails (c :: t2) x).mp ht).subset
    exact hsub (hc ▸ List.mem_cons_self c t2)

/-- The structural deserializer never yields a number on composite-looking
text: a full parse as a number consumes only digits and minus signs, which
rules out a leading `[`/`{` and the `seroval:` marker. -/
theorem serovalDeserialize_not_num {d : String} (hcomp : compositeLooking d = true)
    (n : Int) : ¬(serovalDeserialize d = .ok (.num n)) := by
  intro h
  rw [serovalDeserialize] at h
  cases hp : parseValue (2 * d.data.length + 2) d.data with
  | none => rw [hp] at h; exact Except.noConfusion h
  | some p =>
    match p with
    | (v, r2 :: rs) => rw [hp] at h; exact Except.noConfusion h
    | (v, []) =>
      rw [hp] at h
      dsimp only at h
      injection h with h2
      subst h2
      obtain ⟨pre, hpre, hne, hall⟩ := parseValue_num_shape hp
      rw [List.append_nil] at hpre
      rw [compositeLooking] at hcomp
      rcases Bool.or_eq_true_iff.mp hcomp with hcomp | hcomp
      · rcases Bool.or_eq_true_iff.mp hcomp with hcomp | hcomp
        · obtain ⟨t, ht⟩ := isPrefixOf_single_head hcomp
          have hmem : ('[' : Char) ∈ d.data := by rw [ht]; simp
          rw [hpre] at hmem
          rcases hall _ hmem with hd | hd
          · exact absurd hd (by decide)
          · exact absurd hd (by decide)
        · obtain ⟨t, ht⟩ := isPrefixOf_single_head hcomp
          have hmem : ('{' : Char) ∈ d.data := by rw [ht]; simp
          rw [hpre] at hmem
          rcases hall _ hmem with hd | hd
          · exact absurd hd (by decide)
          · exact absurd hd (by decide)
      · have hsm : serovalMark = 's' :: "eroval:".data := by decide
        have hs : ('s' : Char) ∈ d.data := listContains_head_mem (hsm ▸ hcomp)
        rw [hpre] at hs
        rcases hall _ hs with hd | hd
        · exact absurd hd (by decide)
        · exact absurd hd (by decide)

/-! ## Lemmas: JS objects and the query builder -/

theorem objLookup_objSet_self (o : Obj) (k : String) (v : JsValue) :
    objLookup k (objSet o k v) = some v := by
  induction o with
  | nil => simp [objSet, objLookup]
  | cons e t ih =>
    match e with
    | (k1, v1) =>
      rw [objSet]
      by_cases hk : k1 = k
      · rw [if_pos hk]
        simp [objLookup]
      · rw [if_neg hk]
        simp only [objLookup]
        rw [if_neg hk]
        exact ih

theorem objLookup_objSet_other (o : Obj) {k k2 : String} (v : JsValue) (h : ¬(k2 = k)) :
    objLookup k2 (objSet o k v) = objLookup k2 o := by
  have hk2 : ¬(k = k2) := fun e => h e.symm
  induction o with
  | nil => simp [objSet, objLookup, hk2]
  | cons e t ih =>
    match e with
    | (k1, v1) =>
      rw [objSet]
      by_cases hk : k1 = k
      · rw [if_pos hk]
        simp only [objLookup]
        rw [if_neg hk2, if_neg (by rw [hk]; exact hk2)]
      · rw [if_neg hk]
        simp only [objLookup]
        by_cases hb : k1 = k2
        · rw [if_pos hb, if_pos hb]
        · rw [if_neg hb, if_neg hb]
          exact ih

/-- Per-key last-write-wins for JS spread merge: a key present in `b`
takes `b`'s last value for it, otherwise `a`'s binding is kept. -/
theorem objLookup_objMerge (a b : Obj) (kk : String) :
    objLookup kk (objMerge a b) =
      match objLookupLast kk b with
      | some w => some w
      | none => objLookup kk a := by
  induction b generalizing a with
  | nil => rfl
  | cons e t ih =>
    match e with
    | (k1, v1) =>
      rw [show objMerge a ((k1, v1) :: t) = objMerge (objSet a k1 v1) t from rfl]
      rw [ih (objSet a k1 v1), objLookupLast]
      cases hl : objLookupLast kk t with
      | some w => rfl
      | none =>
        dsimp only
        by_cases hk : k1 = kk
        · rw [if_pos hk, hk]
          rw [objLookup_objSet_self]
        · rw [if_neg hk]
          exact objLookup_objSet_other a v1 (fun e2 => hk e2.symm)

theorem objLookup_isSome_foldl_objSet :
    ∀ (b : List (String × JsValue)) (acc : Obj) (kk : String),
      (objLookup kk acc).isSome = true →
      (objLookup kk (b.foldl (fun o e => objSet o e.1 e.2) acc)).isSome = true := by
  intro b
  induction b with
  | nil => intro acc kk h; exact h
  | cons e t ih =>
    intro acc kk h
    rw [List.foldl_cons]
    apply ih
    show (objLookup kk (objSet acc e.1 e.2)).isSome = true
    by_cases hk : e.1 = kk
    · rw [hk, objLookup_objSet_self]
      rfl
    · rw [objLookup_objSet_other _ _ (fun e2 => hk e2.symm)]
      exact h

theorem buildStep_lookup_isSome (qb : QueryBuilder) (acc : Obj) (e : String × JsValue)
    (kk : String) (h : (objLookup kk acc).isSome = true) :
    (objLookup kk (buildStep qb acc e)).isSome = true := by
  rw [buildStep]
  split_ifs
  · exact h
  · exact h
  · cases mapLookup e.1 qb.mappings with
    | some f =>
      dsimp only
      by_cases hk : e.1 = kk
      · rw [hk, objLookup_objSet_self]; rfl
      · rw [objLookup_objSet_other _ _ (fun e2 => hk e2.symm)]; exact h
    | none =>
      dsimp only
      by_cases hk : e.1 = kk
      · rw [hk, objLookup_objSet_self]; rfl
      · rw [objLookup_objSet_other _ _ (fun e2 => hk e2.symm)]; exact h

theorem foldl_buildStep_isSome (qb : QueryBuilder) :
    ∀ (params : List (String × JsValue)) (acc : Obj) (kk : String),
      (objLookup kk acc).isSome = true →
      (objLookup kk (params.foldl (buildStep qb) acc)).isSome = true := by
  intro params
  induction params with
  | nil => intro acc kk h; exact h
  | cons e t ih => intro acc kk h; exact ih _ _ (buildStep_lookup_isSome qb acc e kk h)

theorem foldl_buildStep_ignored (qb : QueryBuilder) {k : String}
    (hk : qb.ignored.contains k = true) :
    ∀ (params : List (String × JsValue)) (acc : Obj),
      objLookup k (params.foldl (buildStep qb) acc) = objLookup k acc := by
  intro params
  induction params with
  | nil => intro acc; rfl
  | cons e t ih =>
    intro acc
    rw [List.foldl_cons, ih]
    rw [buildStep]
    split_ifs with h1 h2
    · rfl
    · rfl
    · have hne : ¬(k = e.1) := by
        intro e2
        rw [← e2] at h2
        exact h2 hk
      cases mapLookup e.1 qb.mappings with
      | some f =>
        dsimp only
        exact objLookup_objSet_other acc _ hne
      | none =>
        dsimp only
        exact objLookup_objSet_other acc _ hne

/-! ## Lemmas: prefix extraction -/

theorem strStarts_append (uk kk : String) : strStarts (uk ++ kk) uk = true := by
  rw [strStarts, String.data_append]
  exact hasPre_self_append uk.data kk.data

theorem string_length_data (s : String) : s.length = s.data.length := rfl

theorem strDrop_append (uk kk : String) : strDropN (uk ++ kk) uk.length = kk := by
  rw [strDropN, String.data_append, string_length_data, List.drop_left]

theorem string_eq_of_data {a b : String} (h : a.data = b.data) : a = b := by
  cases a
  cases b
  simp only at h
  rw [h]

theorem strStarts_eq_append {k0 uk : String} (h : strStarts k0 uk = true) :
    k0 = uk ++ strDropN k0 uk.length := by
  rw [strStarts] at h
  have hpre : uk.data <+: k0.data := by
    rw [← List.isPrefixOf_iff_prefix]
    exact h
  obtain ⟨t, ht⟩ := hpre
  apply string_eq_of_data
  rw [String.data_append, strDropN, data_mk, string_length_data, ← ht, List.drop_left]

/-- Lookup characterization of the prefix-filtering loop: the result binds
a stripped key to the decode of the LAST source entry carrying the
prefixed key, falling back to the accumulator. -/
theorem extractLoop_lookup (uk : String) :
    ∀ (entries : List (String × Option String)) (acc m : Obj) (kk : String),
      extractLoop uk acc entries = .ok m →
      objLookup kk m =
        match lastEntry (uk ++ kk) entries with
        | some e => (deserializeOptPure e.2).toOption
        | none => objLookup kk acc := by
  intro entries
  induction entries with
  | nil =>
    intro acc m kk hok
    have hm : acc = m := by
      rw [extractLoop] at hok
      exact Except.ok.inj hok
    rw [← hm]
    rfl
  | cons e t ih =>
    intro acc m kk hok
    match e with
    | (k0, v0) =>
      rw [extractLoop] at hok
      rw [lastEntry]
      by_cases hst : strStarts k0 uk = true
      · rw [if_pos hst] at hok
        cases hdec : deserializeOptPure v0 with
        | error err => rw [hdec] at hok; exact Except.noConfusion hok
        | ok w =>
          rw [hdec] at hok
          rw [ih _ _ kk hok]
          cases hl : lastEntry (uk ++ kk) t with
          | some e2 => rfl
          | none =>
            dsimp only
            by_cases hkey : k0 = uk ++ kk
            · rw [if_pos hkey]
              dsimp only
              rw [hdec]
              have hstrip : strDropN k0 uk.length = kk := by
                rw [hkey]
                exact strDrop_append uk kk
              rw [hstrip]
              rw [objLookup_objSet_self]
              rfl
            · rw [if_neg hkey]
              apply objLookup_objSet_other
              intro e2
              apply hkey
              rw [strStarts_eq_append hst, e2]
      · rw [if_neg hst] at hok
        rw [ih _ _ kk hok]
        cases hl : lastEntry (uk ++ kk) t with
        | some e2 => rfl
        | none =>
          dsimp only
          rw [if_neg (show ¬(k0 = uk ++ kk) from by
            intro e2
            rw [e2] at hst
            exact hst (strStarts_append uk kk))]


/-! ## Lemmas: cache transparency -/

/-- Every serialization-cache entry records the uncached serializer's
result for its key. -/
abbrev SCacheOK (cache : SerCache) : Prop :=
  ∀ e ∈ cache, e.2 = serializeUrlPure e.1

/-- Every deserialization-cache entry records the uncached deserializer's
result for its key. -/
abbrev DCacheOK (cache : DeserCache) : Prop :=
  ∀ e ∈ cache, deserializeUrlValuePure e.1 = .ok e.2

theorem serializeCompositeC_fst (cache : SerCache) (v : JsValue)
    (hok : SCacheOK cache)
    (henc : serializeUrlPure v = encodeURIComponent (serovalSerialize v)) :
    (serializeCompositeC cache v).1 = serializeUrlPure v := by
  rw [serializeCompositeC]
  cases hf : cache.find? (fun e => e.1 == v) with
  | some e =>
    dsimp only
    have hmem := List.mem_of_find?_eq_some hf
    have hpe := List.find?_some hf
    have he1 : e.1 = v := eq_of_beq hpe
    have h2 := hok e hmem
    rw [he1] at h2
    exact h2
  | none =>
    dsimp only
    rw [henc]
    split_ifs <;> rfl

theorem serializeCompositeC_snd (cache : SerCache) (v : JsValue)
    (hok : SCacheOK cache)
    (henc : serializeUrlPure v = encodeURIComponent (serovalSerialize v)) :
    SCacheOK (serializeCompositeC cache v).2 := by
  rw [serializeCompositeC]
  cases hf : cache.find? (fun e => e.1 == v) with
  | some e => exact hok
  | none =>
    dsimp only
    by_cases hlen : cache.length < MAX_CACHE_SIZE
    · rw [if_pos hlen]
      intro e he
      rw [List.mem_append] at he
      cases he with
      | inl h => exact hok e h
      | inr h =>
        rw [List.mem_singleton] at h
        rw [h]
        exact henc.symm
    · rw [if_neg hlen]
      exact hok

theorem serializeUrlC_fst (cache : SerCache) (v : JsValue)
    (hok : SCacheOK cache) :
    (serializeUrlC cache v).1 = serializeUrlPure v := by
  cases v with
  | str s => rfl
  | num n => rfl
  | bool b => cases b <;> rfl
  | null => rfl
  | undef => rfl
  | arr l => exact serializeCompositeC_fst cache _ hok rfl
  | obj fs => exact serializeCompositeC_fst cache _ hok rfl
  | date m => exact serializeCompositeC_fst cache _ hok rfl

theorem serializeUrlC_snd (cache : SerCache) (v : JsValue)
    (hok : SCacheOK cache) :
    SCacheOK (serializeUrlC cache v).2 := by
  cases v with
  | str s => exact hok
  | num n => exact hok
  | bool b => cases b <;> exact hok
  | null => exact hok
  | undef => exact hok
  | arr l => exact serializeCompositeC_snd cache _ hok rfl
  | obj fs => exact serializeCompositeC_snd cache _ hok rfl
  | date m => exact serializeCompositeC_snd cache _ hok rfl

theorem deserializeUrlValueC_fst (cache : DeserCache) (value : String)
    (hok : DCacheOK cache) :
    (deserializeUrlValueC cache value).1 = deserializeUrlValuePure value := by
  rw [deserializeUrlValueC]
  by_cases hv : value = ""
  · rw [if_pos hv, deserializeUrlValuePure, if_pos hv]
  · rw [if_neg hv]
    cases hf : cache.find? (fun e => e.1 == value) with
    | some e =>
      dsimp only
      have hmem := List.mem_of_find?_eq_some hf
      have hpe := List.find?_some hf
      have he1 : e.1 = value := eq_of_beq hpe
      have h2 := hok e hmem
      rw [he1] at h2
      exact h2.symm
    | none =>
      dsimp only
      rw [deserializeUrlValuePure, if_neg hv, deserializeTryPure]
      cases hd : decodeURIComponent value with
      | none => rfl
      | some decoded =>
        dsimp only
        by_cases h1 : decoded = "true"
        · rw [if_pos h1, if_pos h1]
        · rw [if_neg h1, if_neg h1]
          by_cases h2 : decoded = "false"
          · rw [if_pos h2, if_pos h2]
          · rw [if_neg h2, if_neg h2]
            by_cases h3 : decoded = "null"
            · rw [if_pos h3, if_pos h3]
            · rw [if_neg h3, if_neg h3]
              by_cases h4 : decoded = "undefined"
              · rw [if_pos h4, if_pos h4]
              · rw [if_neg h4, if_neg h4]
                cases hn : jsCanonicalNumber? decoded with
                | some n => rfl
                | none =>
                  dsimp only
                  by_cases hc : compositeLooking decoded = false
                  · rw [if_pos hc, if_pos hc]
                  · rw [if_neg hc, if_neg hc]
                    cases hsv : serovalDeserialize decoded with
                    | ok r =>
                      dsimp only
                      split_ifs <;> rfl
                    | error u => dsimp only

theorem deserializeUrlValueC_snd (cache : DeserCache) (value : String)
    (hok : DCacheOK cache) :
    DCacheOK (deserializeUrlValueC cache value).2 := by
  rw [deserializeUrlValueC]
  by_cases hv : value = ""
  · rw [if_pos hv]
    exact hok
  · rw [if_neg hv]
    cases hf : cache.find? (fun e => e.1 == value) with
    | some e => exact hok
    | none =>
      dsimp only
      cases hd : decodeURIComponent value with
      | none => exact hok
      | some decoded =>
        dsimp only
        by_cases h1 : decoded = "true"
        · rw [if_pos h1]; exact hok
        · rw [if_neg h1]
          by_cases h2 : decoded = "false"
          · rw [if_pos h2]; exact hok
          · rw [if_neg h2]
            by_cases h3 : decoded = "null"
            · rw [if_pos h3]; exact hok
            · rw [if_neg h3]
              by_cases h4 : decoded = "undefined"
              · rw [if_pos h4]; exact hok
              · rw [if_neg h4]
                cases hn : jsCanonicalNumber? decoded with
                | some n => exact hok
                | none =>
                  dsimp only
                  by_cases hc : compositeLooking decoded = false
                  · rw [if_pos hc]; exact hok
                  · rw [if_neg hc]
                    cases hsv : serovalDeserialize decoded with
                    | error u => exact hok
                    | ok r =>
                      dsimp only
                      by_cases hlen : cache.length < MAX_CACHE_SIZE
                      · rw [if_pos hlen]
                        intro e he
                        rw [List.mem_append] at he
                        cases he with
                        | inl h => exact hok e h
                        | inr h =>
                          rw [List.mem_singleton] at h
                          rw [h]
                          rw [deserializePure_unfold hv hd, if_neg h1, if_neg h2,
                            if_neg h3, if_neg h4, hn]
                          dsimp only
                          rw [if_neg hc, hsv]
                      · rw [if_neg hlen]
                        exact hok

theorem deserializeOptC_fst (cache : DeserCache) (v : Option String)
    (hok : DCacheOK cache) :
    (deserializeOptC cache v).1 = deserializeOptPure v := by
  cases v with
  | none => rfl
  | some s => exact deserializeUrlValueC_fst cache s hok

theorem deserializeOptC_snd (cache : DeserCache) (v : Option String)
    (hok : DCacheOK cache) :
    DCacheOK (deserializeOptC cache v).2 := by
  cases v with
  | none => exact hok
  | some s => exact deserializeUrlValueC_snd cache s hok

theorem extractLoopC_spec (uk : String) :
    ∀ (entries : List (String × Option String)) (cache : DeserCache) (acc : Obj),
      DCacheOK cache →
      (extractLoopC uk cache acc entries).1 = extractLoop uk acc entries ∧
      DCacheOK (extractLoopC uk cache acc entries).2 := by
  intro entries
  induction entries with
  | nil =>
    intro cache acc hok
    exact ⟨rfl, hok⟩
  | cons e t ih =>
    intro cache acc hok
    match e with
    | (k0, v0) =>
      rw [extractLoopC, extractLoop]
      by_cases hst : strStarts k0 uk = true
      · rw [if_pos hst, if_pos hst]
        have hfst := deserializeOptC_fst cache v0 hok
        have hsnd := deserializeOptC_snd cache v0 hok
        cases hdc : deserializeOptC cache v0 with
        | mk r cache2 =>
          rw [hdc] at hfst hsnd
          dsimp only at hfst hsnd
          rw [← hfst]
          cases r with
          | ok w =>
            dsimp only
            exact ih cache2 _ hsnd
          | error err => exact ⟨rfl, hsnd⟩
      · rw [if_neg hst, if_neg hst]
        exact ih cache acc hok

theorem extractLoopAllC_spec :
    ∀ (entries : List (String × Option String)) (cache : DeserCache) (acc : Obj),
      DCacheOK cache →
      (extractLoopAllC cache acc entries).1 = extractLoopAll acc entries ∧
      DCacheOK (extractLoopAllC cache acc entries).2 := by
  intro entries
  induction entries with
  | nil =>
    intro cache acc hok
    exact ⟨rfl, hok⟩
  | cons e t ih =>
    intro cache acc hok
    match e with
    | (k0, v0) =>
      rw [extractLoopAllC, extractLoopAll]
      have hfst := deserializeOptC_fst cache v0 hok
      have hsnd := deserializeOptC_snd cache v0 hok
      cases hdc : deserializeOptC cache v0 with
      | mk r cache2 =>
        rw [hdc] at hfst hsnd
        dsimp only at hfst hsnd
        rw [← hfst]
        cases r with
        | ok w =>
          dsimp only
          exact ih cache2 _ hsnd
        | error err => exact ⟨rfl, hsnd⟩

theorem deserializeUrlParamsC_fst (cache : DeserCache) (src : SearchParams)
    (uniqueKey : String) (hok : DCacheOK cache) :
    (deserializeUrlParamsC cache src uniqueKey).1 =
      deserializeUrlParamsPure src uniqueKey := by
  rw [deserializeUrlParamsC, deserializeUrlParamsPure]
  by_cases hu : uniqueKey = ""
  · rw [if_pos hu, if_pos hu]
    exact (extractLoopAllC_spec (spEntries src) cache [] hok).1
  · rw [if_neg hu, if_neg hu]
    exact (extractLoopC_spec uniqueKey (spEntries src) cache [] hok).1

/-! ## Lemmas: the URL update path -/

theorem paramLookup_uspDelete (k : String) :
    ∀ params, paramLookup k (uspDelete params k) = none := by
  intro params
  induction params with
  | nil => rfl
  | cons e t ih =>
    match e with
    | (k1, v1) =>
      rw [uspDelete, List.filter_cons]
      by_cases h : k1 = k
      · rw [if_neg (by simp [h])]
        exact ih
      · rw [if_pos (by simp [h])]
        rw [paramLookup, if_neg h]
        exact ih

theorem paramLookup_uspSet (k v : String) :
    ∀ params, paramLookup k (uspSet params k v) = some v := by
  intro params
  induction params with
  | nil => rw [uspSet, paramLookup, if_pos rfl]
  | cons e t ih =>
    match e with
    | (k1, v1) =>
      rw [uspSet]
      by_cases h : k1 = k
      · rw [if_pos h, paramLookup, if_pos rfl]
      · rw [if_neg h, paramLookup, if_neg h]
        exact ih

theorem updateUrlStep_remove (uniqueKey : String) (params : List (String × String))
    (key : String) (v : JsValue) (h : shouldRemoveParam v = true) :
    paramLookup (uniqueKey ++ key) (updateUrlStep uniqueKey params (key, v)) = none := by
  rw [updateUrlStep]
  dsimp only
  rw [if_pos h]
  by_cases hc : paramLookup (uniqueKey ++ key) params = none
  · rw [if_neg (fun hne => hne hc)]
    exact hc
  · rw [if_pos hc]
    exact paramLookup_uspDelete _ params

theorem updateUrlStep_write (uniqueKey : String) (params : List (String × String))
    (key : String) (v : JsValue) (h : shouldRemoveParam v = false) :
    paramLookup (uniqueKey ++ key) (updateUrlStep uniqueKey params (key, v)) =
      some (serializeUrlPure v) := by
  rw [updateUrlStep]
  dsimp only
  rw [if_neg (by simp [h])]
  by_cases hc : paramLookup (uniqueKey ++ key) params = some (serializeUrlPure v)
  · rw [if_neg (fun hne => hne hc)]
    exact hc
  · rw [if_pos hc]
    exact paramLookup_uspSet _ _ params

/-- The exact set of values `shouldRemoveParam` removes: the empty string,
`null`, `undefined`, the empty array, the key-less objects (the empty plain
object and every `Date`), and `false`. -/
theorem shouldRemove_iff (v : JsValue) :
    shouldRemoveParam v = true ↔
      (v = .str "" ∨ v = .null ∨ v = .undef ∨ v = .arr [] ∨ v = .obj [] ∨
        v = .bool false ∨ ∃ m, v = .date m) := by
  cases v with
  | str s =>
    rw [shouldRemoveParam, decide_eq_true_iff]
    constructor
    · intro h
      exact Or.inl (by rw [h])
    · intro h
      rcases h with h | h | h | h | h | h | ⟨m, h⟩
      · injection h
      · exact JsValue.noConfusion h
      · exact JsValue.noConfusion h
      · exact JsValue.noConfusion h
      · exact JsValue.noConfusion h
      · exact JsValue.noConfusion h
      · exact JsValue.noConfusion h
  | num n =>
    rw [shouldRemoveParam]
    constructor
    · intro h
      exact Bool.noConfusion h
    · intro h
      rcases h with h | h | h | h | h | h | ⟨m, h⟩ <;> exact JsValue.noConfusion h
  | bool b =>
    cases b with
    | false =>
      constructor
      · intro h
        exact Or.inr (Or.inr (Or.inr (Or.inr (Or.inr (Or.inl rfl)))))
      · intro h
        rfl
    | true =>
      constructor
      · intro h
        exact Bool.noConfusion h
      · intro h
        rcases h with h | h | h | h | h | h | ⟨m, h⟩
        · exact JsValue.noConfusion h
        · exact JsValue.noConfusion h
        · exact JsValue.noConfusion h
        · exact JsValue.noConfusion h
        · exact JsValue.noConfusion h
        · injection h with h2
          exact Bool.noConfusion h2
        · exact JsValue.noConfusion h
  | null =>
    constructor
    · intro h
      exact Or.inr (Or.inl rfl)
    · intro h
      rfl
  | undef =>
    constructor
    · intro h
      exact Or.inr (Or.inr (Or.inl rfl))
    · intro h
      rfl
  | arr l =>
    cases l with
    | nil =>
      constructor
      · intro h
        exact Or.inr (Or.inr (Or.inr (Or.inl rfl)))
      · intro h
        rfl
    | cons a t =>
      constructor
      · intro h
        exact Bool.noConfusion h
      · intro h
        rcases h with h | h | h | h | h | h | ⟨m, h⟩
        · exact JsValue.noConfusion h
        · exact JsValue.noConfusion h
        · exact JsValue.noConfusion h
        · injection h with h2
          exact List.noConfusion h2
        · exact JsValue.noConfusion h
        · exact JsValue.noConfusion h
        · exact JsValue.noConfusion h
  | obj fs =>
    cases fs with
    | nil =>
      constructor
      · intro h
        exact Or.inr (Or.inr (Or.inr (Or.inr (Or.inl rfl))))
      · intro h
        rfl
    | cons a t =>
      constructor
      · intro h
        exact Bool.noConfusion h
      · intro h
        rcases h with h | h | h | h | h | h | ⟨m, h⟩
        · exact JsValue.noConfusion h
        · exact JsValue.noConfusion h
        · exact JsValue.noConfusion h
        · exact JsValue.noConfusion h
        · injection h with h2
          exact List.noConfusion h2
        · exact JsValue.noConfusion h
        · exact JsValue.noConfusion h
  | date m =>
    constructor
    · intro h
      exact Or.inr (Or.inr (Or.inr (Or.inr (Or.inr (Or.inr ⟨m, rfl⟩)))))
    · intro h
      rfl

theorem build_postProcess_none (qb : QueryBuilder) (params : List (String × JsValue))
    (hpp : qb.postProcess = none) :
    build qb params = params.foldl (buildStep qb) (buildSeed qb) := by
  rw [build, hpp]

/-! ## The claims -/

/-- C1 (amended): the round-trip law `decode (encode v) = v` holds exactly on
the round-trippable values: booleans, arrays, plain objects, dates, numbers
inside the exact-integer range of the model, and strings that are non-empty,
are not one of the four literals, are not a canonical number, and do not look
composite.  It fails for `null` and `undefined` (both encode to `""`, which
decodes to the empty string) and for the excluded strings. -/
theorem C1_roundtrip_representable (v : JsValue) (h : roundTrippable v = true) :
    deserializeUrlValuePure (serializeUrlPure v) = .ok v :=
  roundtrip_on_roundTrippable v h

theorem C1_roundtrip_representable_witness :
    roundTrippable
      (.obj [("a", .arr [.num 1, .bool true]), ("d", .date 5)]) = true ∧
    deserializeUrlValuePure
        (serializeUrlPure (.obj [("a", .arr [.num 1, .bool true]), ("d", .date 5)])) =
      .ok (.obj [("a", .arr [.num 1, .bool true]), ("d", .date 5)]) :=
  ⟨by decide, C1_roundtrip_representable _ (by decide)⟩

/-- C1 counterexample: `null` is a representable value of the claim, yet
`serializeUrl null` is `""` and decoding `""` returns the empty string, not
`null`. -/
theorem C1_counterexample :
    serializeUrlPure .null = "" ∧
    ¬(deserializeUrlValuePure (serializeUrlPure .null) = .ok .null) := by
  decide

/-- C2: decoding CAN throw, contradicting the claim.  On input `"%"` the
`try` block throws inside `decodeURIComponent`; the `catch` handler then
calls `decodeURIComponent(value)` again, which throws the same `URIError`
out of `deserializeUrlValue` to the caller (`.error ()` models the escaped
exception). -/
theorem C2_decode_throws : deserializeUrlValuePure "%" = .error () := by
  decide

/-- C3: cache transparency.  For caches whose entries record the uncached
codec results (the invariant every reachable cache state satisfies, since
entries are only ever inserted with freshly computed results), the cached
serializer, single-value deserializer and parameter extractor return
exactly what they return after `clearUrlStateCaches`, and both cache
invariants are preserved by each call. -/
theorem C3_cache_transparency (caches : UrlCaches) (v : JsValue) (s : String)
    (src : SearchParams) (uniqueKey : String)
    (hs : SCacheOK caches.ser) (hd : DCacheOK caches.deser) :
    ((serializeUrlC caches.ser v).1 =
        (serializeUrlC (clearUrlStateCaches caches).ser v).1 ∧
      (deserializeUrlValueC caches.deser s).1 =
        (deserializeUrlValueC (clearUrlStateCaches caches).deser s).1 ∧
      (deserializeUrlParamsC caches.deser src uniqueKey).1 =
        (deserializeUrlParamsC (clearUrlStateCaches caches).deser src uniqueKey).1) ∧
    SCacheOK (serializeUrlC caches.ser v).2 ∧
    DCacheOK (deserializeUrlValueC caches.deser s).2 := by
  have hnils : SCacheOK (clearUrlStateCaches caches).ser := by
    intro e he
    cases he
  have hnild : DCacheOK (clearUrlStateCaches caches).deser := by
    intro e he
    cases he
  refine ⟨⟨?_, ?_, ?_⟩, ?_, ?_⟩
  · rw [serializeUrlC_fst caches.ser v hs, serializeUrlC_fst _ v hnils]
  · rw [deserializeUrlValueC_fst caches.deser s hd,
      deserializeUrlValueC_fst _ s hnild]
  · rw [deserializeUrlParamsC_fst caches.deser src uniqueKey hd,
      deserializeUrlParamsC_fst _ src uniqueKey hnild]
  · exact serializeUrlC_snd caches.ser v hs
  · exact deserializeUrlValueC_snd caches.deser s hd

/-- Concrete warm caches for the C3 witness: one composite entry each. -/
def cachesC3 : UrlCaches :=
  ⟨[(JsValue.arr [], "%5B%5D")], [("%5B%5D", JsValue.arr [])]⟩

theorem C3_cache_transparency_witness :
    SCacheOK cachesC3.ser ∧ DCacheOK cachesC3.deser ∧
    (((serializeUrlC cachesC3.ser (JsValue.arr [])).1 =
        (serializeUrlC (clearUrlStateCaches cachesC3).ser (JsValue.arr [])).1 ∧
      (deserializeUrlValueC cachesC3.deser "%5B%5D").1 =
        (deserializeUrlValueC (clearUrlStateCaches cachesC3).deser "%5B%5D").1 ∧
      (deserializeUrlParamsC cachesC3.deser [("u_a", SPV.one "7")] "u_").1 =
        (deserializeUrlParamsC (clearUrlStateCaches cachesC3).deser
          [("u_a", SPV.one "7")] "u_").1) ∧
    SCacheOK (serializeUrlC cachesC3.ser (JsValue.arr [])).2 ∧
    DCacheOK (deserializeUrlValueC cachesC3.deser "%5B%5D").2) :=
  ⟨by decide, by decide,
    C3_cache_transparency cachesC3 (JsValue.arr []) "%5B%5D" [("u_a", SPV.one "7")]
      "u_" (by decide) (by decide)⟩

/-- C4: literal recognition on a decode that misses the cache, after
URL-unescaping `s` to `d`: `"true"`, `"false"`, `"null"` and `"undefined"`
decode to the corresponding literal values, and the result is a number `n`
exactly when `d` is none of the four literals and round-trips losslessly
through number-to-string conversion (`jsCanonicalNumber?`), so `"7"` is the
number `7` but `"007"` stays a string. -/
theorem C4_literal_priority (s d : String) (hs : ¬(s = ""))
    (hd : decodeURIComponent s = some d) :
    (d = "true" → deserializeUrlValuePure s = .ok (.bool true)) ∧
    (d = "false" → deserializeUrlValuePure s = .ok (.bool false)) ∧
    (d = "null" → deserializeUrlValuePure s = .ok .null) ∧
    (d = "undefined" → deserializeUrlValuePure s = .ok .undef) ∧
    (∀ n : Int,
      deserializeUrlValuePure s = .ok (.num n) ↔
        (¬(d = "true") ∧ ¬(d = "false") ∧ ¬(d = "null") ∧ ¬(d = "undefined") ∧
          jsCanonicalNumber? d = some n)) := by
  refine ⟨?_, ?_, ?_, ?_, ?_⟩
  · intro h
    rw [deserializePure_unfold hs hd, h]
    decide
  · intro h
    rw [deserializePure_unfold hs hd, h]
    decide
  · intro h
    rw [deserializePure_unfold hs hd, h]
    decide
  · intro h
    rw [deserializePure_unfold hs hd, h]
    decide
  · intro n
    rw [deserializePure_unfold hs hd]
    constructor
    · intro h
      by_cases h1 : d = "true"
      · rw [if_pos h1] at h
        exact absurd (Except.ok.inj h) (fun he => JsValue.noConfusion he)
      rw [if_neg h1] at h
      by_cases h2 : d = "false"
      · rw [if_pos h2] at h
        exact absurd (Except.ok.inj h) (fun he => JsValue.noConfusion he)
      rw [if_neg h2] at h
      by_cases h3 : d = "null"
      · rw [if_pos h3] at h
        exact absurd (Except.ok.inj h) (fun he => JsValue.noConfusion he)
      rw [if_neg h3] at h
      by_cases h4 : d = "undefined"
      · rw [if_pos h4] at h
        exact absurd (Except.ok.inj h) (fun he => JsValue.noConfusion he)
      rw [if_neg h4] at h
      refine ⟨h1, h2, h3, h4, ?_⟩
      cases hn : jsCanonicalNumber? d with
      | some m =>
        rw [hn] at h
        dsimp only at h
        have hm := Except.ok.inj h
        injection hm with hm2
        rw [hm2]
      | none =>
        rw [hn] at h
        dsimp only at h
        by_cases hc : compositeLooking d = false
        · rw [if_pos hc] at h
          exact absurd (Except.ok.inj h) (fun he => JsValue.noConfusion he)
        · rw [if_neg hc] at h
          have hct : compositeLooking d = true := by
            revert hc
            cases compositeLooking d <;> simp
          cases hsv : serovalDeserialize d with
          | ok w =>
            rw [hsv] at h
            dsimp only at h
            have hw := Except.ok.inj h
            rw [hw] at hsv
            exact absurd hsv (serovalDeserialize_not_num hct n)
          | error u =>
            rw [hsv] at h
            dsimp only at h
            exact absurd (Except.ok.inj h) (fun he => JsValue.noConfusion he)
    · intro h
      obtain ⟨h1, h2, h3, h4, hn⟩ := h
      rw [if_neg h1, if_neg h2, if_neg h3, if_neg h4, hn]

theorem C4_literal_priority_witness :
    ¬(("7" : String) = "") ∧ decodeURIComponent "7" = some "7" ∧
    ((("7" : String) = "true" → deserializeUrlValuePure "7" = .ok (.bool true)) ∧
      (("7" : String) = "false" → deserializeUrlValuePure "7" = .ok (.bool false)) ∧
      (("7" : String) = "null" → deserializeUrlValuePure "7" = .ok .null) ∧
      (("7" : String) = "undefined" → deserializeUrlValuePure "7" = .ok .undef) ∧
      (∀ n : Int,
        deserializeUrlValuePure "7" = .ok (.num n) ↔
          (¬(("7" : String) = "true") ∧ ¬(("7" : String) = "false") ∧
            ¬(("7" : String) = "null") ∧ ¬(("7" : String) = "undefined") ∧
            jsCanonicalNumber? "7" = some n))) :=
  ⟨by decide, by decide, C4_literal_priority "7" "7" (by decide) (by decide)⟩

/-- C5: ignore precedence.  With no post-processing configured, the `build`
result binds an ignored key to exactly what the seeded defaults bind it to —
the incoming value for that key never reaches the result, even when a
mapping is registered for it (the theorem quantifies over every builder,
including those with mappings for `k`). -/
theorem C5_ignore_precedence (qb : QueryBuilder) (k : String)
    (params : List (String × JsValue))
    (hk : qb.ignored.contains k = true) (hpp : qb.postProcess = none) :
    objLookup k (build qb params) = objLookup k (buildSeed qb) := by
  rw [build_postProcess_none qb params hpp]
  exact foldl_buildStep_ignored qb hk params (buildSeed qb)

/-- The builder of the C5 witness: `"debug"` both ignored and mapped. -/
def qbC5 : QueryBuilder :=
  addMapping (addIgnore defaultQueryBuilder ["debug"]) "debug"
    (fun _ => JsValue.str "mutated")

theorem C5_ignore_precedence_witness :
    qbC5.ignored.contains "debug" = true ∧ qbC5.postProcess = none ∧
    objLookup "debug" (build qbC5 [("debug", JsValue.str "x")]) =
      objLookup "debug" (buildSeed qbC5) :=
  ⟨by decide, rfl,
    C5_ignore_precedence qbC5 "debug" [("debug", JsValue.str "x")] (by decide) rfl⟩

/-- C6: defaults and override.  The fresh builder's defaults are
`{page: 1, pageSize: 10}`; `setDefaults` shallow-merges over the existing
defaults with the per-key last-write-wins law stated by
`objLookup`/`objLookupLast`; `build {}` returns exactly
`{page: 1, pageSize: 10}` and `build {page: 3}` returns
`{page: 3, pageSize: 10}`. -/
theorem C6_defaults_override :
    defaultQueryBuilder.defaults = [("page", .num 1), ("pageSize", .num 10)] ∧
    (∀ (qb : QueryBuilder) (d : Obj),
      (setDefaults qb d).defaults = objMerge qb.defaults d) ∧
    (∀ (a b : Obj) (k : String),
      objLookup k (objMerge a b) =
        match objLookupLast k b with
        | some w => some w
        | none => objLookup k a) ∧
    build defaultQueryBuilder [] = [("page", .num 1), ("pageSize", .num 10)] ∧
    build defaultQueryBuilder [("page", .num 3)] =
      [("page", .num 3), ("pageSize", .num 10)] :=
  ⟨rfl, fun _ _ => rfl, objLookup_objMerge, by decide, by decide⟩

/-- C7: prefix extraction.  Under a non-empty `uniqueKey`, a successful
extraction binds each stripped key `kk` to the decoded value of the LAST
source entry whose key is `uniqueKey ++ kk` (enumeration order, last write
wins), and binds nothing else: keys with no prefixed source entry are
absent. -/
theorem C7_prefix_extraction (src : SearchParams) (uniqueKey : String) (m : Obj)
    (hne : ¬(uniqueKey = ""))
    (hok : deserializeUrlParamsPure src uniqueKey = .ok m) :
    ∀ kk : String,
      objLookup kk m =
        match lastEntry (uniqueKey ++ kk) (spEntries src) with
        | some e => (deserializeOptPure e.2).toOption
        | none => none := by
  intro kk
  rw [deserializeUrlParamsPure, if_neg hne] at hok
  rw [extractLoop_lookup uniqueKey (spEntries src) [] m kk hok]
  cases lastEntry (uniqueKey ++ kk) (spEntries src) with
  | some e => rfl
  | none => rfl

theorem C7_prefix_extraction_witness :
    ¬(("u_" : String) = "") ∧
    deserializeUrlParamsPure [("u_search", SPV.one "john"), ("i_search", SPV.one "bug")]
        "u_" = .ok [("search", JsValue.str "john")] ∧
    (∀ kk : String,
      objLookup kk [("search", JsValue.str "john")] =
        match lastEntry ("u_" ++ kk)
            (spEntries [("u_search", SPV.one "john"), ("i_search", SPV.one "bug")]) with
        | some e => (deserializeOptPure e.2).toOption
        | none => none) :=
  ⟨by decide, by decide,
    C7_prefix_extraction [("u_search", SPV.one "john"), ("i_search", SPV.one "bug")]
      "u_" [("search", JsValue.str "john")] (by decide) (by decide)⟩

/-- C8 (amended): decode idempotence holds for plain-string results that
contain no percent sign (and keep the plain-string shape: not a literal,
not a canonical number, not composite-looking); it FAILS for plain-string
results containing `%`, which a second decode unescapes again.  Encoding
the empty sentinels `null` and `undefined` always yields `""`. -/
theorem C8_idempotent_plain (t : String)
    (hp : ∀ c ∈ t.data, ¬(c = pctChar))
    (h1 : ¬(t = "true")) (h2 : ¬(t = "false")) (h3 : ¬(t = "null"))
    (h4 : ¬(t = "undefined")) (h5 : jsCanonicalNumber? t = none)
    (h6 : compositeLooking t = false) :
    deserializeUrlValuePure t = .ok (.str t) ∧
    serializeUrlPure .null = "" ∧ serializeUrlPure .undef = "" :=
  ⟨decode_fixed_point hp h1 h2 h3 h4 h5 h6, rfl, rfl⟩

theorem C8_idempotent_plain_witness :
    (∀ c ∈ ("john" : String).data, ¬(c = pctChar)) ∧
    (deserializeUrlValuePure "john" = .ok (.str "john") ∧
      serializeUrlPure .null = "" ∧ serializeUrlPure .undef = "") :=
  ⟨by decide,
    C8_idempotent_plain "john" (by decide) (by decide) (by decide) (by decide)
      (by decide) (by decide) (by decide)⟩

/-- C8 counterexample: `"%2541"` decodes to the plain string `"%41"`, but
decoding `"%41"` again yields `"A"`, not `"%41"` — decode is not idempotent
on plain-string results that contain a percent sign. -/
theorem C8_counterexample :
    deserializeUrlValuePure "%2541" = .ok (.str "%41") ∧
    ¬(deserializeUrlValuePure "%41" = .ok (.str "%41")) := by
  decide

/-- C9 (amended): the url-update removal policy.  The removed set is
exactly the empty string, `null`, `undefined`, the empty array, the empty
plain object, `false` AND every `Date` (a key-less object); a removable
value deletes the parameter key, any other value writes
`serializeUrl(value)` under it. -/
theorem C9_removal_policy (uniqueKey key : String)
    (params : List (String × String)) (v : JsValue) :
    (shouldRemoveParam v = true ↔
      (v = .str "" ∨ v = .null ∨ v = .undef ∨ v = .arr [] ∨ v = .obj [] ∨
        v = .bool false ∨ ∃ m, v = .date m)) ∧
    (shouldRemoveParam v = true →
      paramLookup (uniqueKey ++ key) (updateUrl uniqueKey params [(key, v)]) = none) ∧
    (shouldRemoveParam v = false →
      paramLookup (uniqueKey ++ key) (updateUrl uniqueKey params [(key, v)]) =
        some (serializeUrlPure v)) :=
  ⟨shouldRemove_iff v,
    fun h => updateUrlStep_remove uniqueKey params key v h,
    fun h => updateUrlStep_write uniqueKey params key v h⟩

/-- C9 counterexample: `undefined` and dates are not in the claim's removal
set `{"", [], {}, false, null}`, so the claim says they are written — but
the code removes them (`value == null` also catches `undefined`; a `Date`
has no own enumerable keys). -/
theorem C9_counterexample :
    shouldRemoveParam .undef = true ∧ shouldRemoveParam (.date 0) = true ∧
    updateUrl "" [("k", "x")] [("k", JsValue.undef)] = [] := by
  decide

/-- C10 (implicit): with no post-processing configured, every `build` result
contains the keys `page` and `pageSize` — the result is seeded with
`{page: 1, pageSize: 10}` beneath the configured defaults, inputs can only
overwrite values, and a defaults object passed to the constructor REPLACES
the seeded defaults outright (spread overwrite, not a merge). -/
theorem C10_page_keys (cfg : QueryBuilderConfig) (params : List (String × JsValue))
    (hpp : (mkQueryBuilder cfg).postProcess = none) :
    ((objLookup "page" (build (mkQueryBuilder cfg) params)).isSome = true ∧
      (objLookup "pageSize" (build (mkQueryBuilder cfg) params)).isSome = true) ∧
    (∀ (d : Obj) (c : QueryBuilderConfig), c.defaultsOpt = some d →
      (mkQueryBuilder c).defaults = d) := by
  refine ⟨⟨?_, ?_⟩, ?_⟩
  · rw [build_postProcess_none _ params hpp]
    apply foldl_buildStep_isSome
    rw [buildSeed, objMerge]
    apply objLookup_isSome_foldl_objSet
    rfl
  · rw [build_postProcess_none _ params hpp]
    apply foldl_buildStep_isSome
    rw [buildSeed, objMerge]
    apply objLookup_isSome_foldl_objSet
    rfl
  · intro d c h
    rw [mkQueryBuilder, h]
    rfl

/-- The constructor config of the C10 witness: defaults that omit both
`page` and `pageSize`. -/
def cfgC10 : QueryBuilderConfig := ⟨some [("q", JsValue.str "v")], none, none, none⟩

theorem C10_page_keys_witness :
    (mkQueryBuilder cfgC10).postProcess = none ∧
    (((objLookup "page" (build (mkQueryBuilder cfgC10) [("page", JsValue.num 3)])).isSome =
        true ∧
      (objLookup "pageSize"
          (build (mkQueryBuilder cfgC10) [("page", JsValue.num 3)])).isSome = true) ∧
    (∀ (d : Obj) (c : QueryBuilderConfig), c.defaultsOpt = some d →
      (mkQueryBuilder c).defaults = d)) :=
  ⟨rfl, C10_page_keys cfgC10 [("page", JsValue.num 3)] rfl⟩

end UrlState
